import Mathlib

/-!
Verification of the dataplane-orchestration core of a container-network-policy
agent, together with the CNS IPAM invoker and the public `GenericDataplane`
contract.  The dataplane engine itself (Set Store, Rule-Set Store, Pod
Membership Tracker, Apply Coordinator) is modelled from the specification; the
`GenericDataplane` interface shape is transcribed from the generated mock of
`npm/pkg/dataplane/types.go`, and the CNS invoker is transcribed from
`cni/network/invoker_cns.go`.
-/

/-! ## Set and policy data model -/

/-- Modelled from the spec: the kind of an address set, one of Set or List
(section 3, IPSetMetadata). -/
inductive SetKind
  | set
  | list
deriving DecidableEq, Repr

/-- Modelled from the spec: identity of an address set — a name unique within a
node and a kind (section 3, IPSetMetadata). -/
structure IPSetMetadata where
  name : String
  kind : SetKind
deriving DecidableEq, Repr

/-- Modelled from the spec: the mutable entity behind an IPSetMetadata — raw
members (ip, podKey pairs) for kind Set, referenced set names for kind List,
and whether the set has been applied to the host by a successful apply
(section 3, IPSet).  The reference count of the spec is derived, see
`refCount`. -/
structure IPSet where
  metadata : IPSetMetadata
  members : List (String × String)
  refs : List String
  applied : Bool
deriving DecidableEq, Repr

/-- Modelled from the spec: a single match-rule of a network policy — the set
names used as match criteria plus protocol/port predicates and an allow flag
(section 3, NPMNetworkPolicy). -/
structure NPMRule where
  matchSets : List String
  protocol : Option String
  port : Option Nat
  allow : Bool
deriving DecidableEq, Repr

/-- Modelled from the spec: a named rule-set — a unique name and an ordered
sequence of match-rules (section 3, NPMNetworkPolicy). -/
structure NPMNetworkPolicy where
  name : String
  rules : List NPMRule
deriving DecidableEq, Repr

/-- Modelled from the spec: a staged policy together with whether it has been
applied to the host (section 4.4, entity state machine). -/
structure PolicyEntry where
  policy : NPMNetworkPolicy
  applied : Bool
deriving DecidableEq, Repr

/-- Modelled from the spec: the pod update record handed to UpdatePod — pod
key, new IP, and target set names (section 6, UpdatePod inputs). -/
structure UpdateNPMPod where
  podKey : String
  podIP : String
  targetSets : List String
deriving DecidableEq, Repr

/-- Modelled from the spec: the Pending Set — identifiers marked dirty since
the last successful apply, split by the five phases of the apply ordering
(sections 3 and 4.4): updated sets and membership changes, updated policies,
removed policies, removed list references, removed sets. -/
structure Pending where
  updatedSets : List String
  updatedPolicies : List String
  removedPolicies : List String
  refRemovals : List (String × String)
  removedSets : List String
deriving DecidableEq, Repr

/-- Modelled from the spec: the in-memory engine state — the Set Store, the
Pod Membership Tracker (pod key to current IP and member set names), the
Rule-Set Store and the Pending Set (section 2, components). -/
structure Store where
  sets : List IPSet
  pods : List (String × String × List String)
  policies : List PolicyEntry
  pending : Pending
deriving DecidableEq, Repr

/-- Modelled from the spec: the staging error kinds (section 7).  Cycles in
list composition are reported as ErrUnknownSet, following section 4.1. -/
inductive Err
  | unknownSet
  | policyExists
  | policyNotFound
  | validation
  | executor
deriving DecidableEq, Repr

/-- Modelled from the spec: a freshly constructed engine with empty stores and
an empty Pending Set. -/
def emptyStore : Store :=
  { sets := [], pods := [], policies := [], pending := ⟨[], [], [], [], []⟩ }

/-! ## Helpers -/

/-- Insert a name into a list unless already present. -/
def insertName (n : String) (l : List String) : List String :=
  if n ∈ l then l else n :: l

/-- Insert an (ip, podKey) pair into a member list unless already present. -/
def insertPair (pr : String × String) (l : List (String × String)) :
    List (String × String) :=
  if pr ∈ l then l else pr :: l

/-- Union of two name lists, deduplicating against the first. -/
def unionNames (a b : List String) : List String :=
  b.foldl (fun acc n => insertName n acc) a

/-- Look up a set by name. -/
def findSetIn : List IPSet → String → Option IPSet
  | [], _ => none
  | s :: rest, n => if s.metadata.name = n then some s else findSetIn rest n

/-- Look up a set by name in the store. -/
def findSet (st : Store) (n : String) : Option IPSet :=
  findSetIn st.sets n

/-- Look up a policy entry by name. -/
def findPolicyIn : List PolicyEntry → String → Option PolicyEntry
  | [], _ => none
  | pe :: rest, n => if pe.policy.name = n then some pe else findPolicyIn rest n

/-- Look up a policy entry by name in the store. -/
def findPolicy (st : Store) (n : String) : Option PolicyEntry :=
  findPolicyIn st.policies n

/-- Look up a pod record by pod key. -/
def findPodIn : List (String × String × List String) → String →
    Option (String × List String)
  | [], _ => none
  | p :: rest, k => if p.1 = k then some p.2 else findPodIn rest k

/-- Set or replace a pod record. -/
def setPod (pods : List (String × String × List String)) (k : String)
    (v : String × List String) : List (String × String × List String) :=
  (k, v) :: pods.filter (fun p => p.1 ≠ k)

/-- All set names referenced by a sequence of rules. -/
def rulesRefs : List NPMRule → List String
  | [] => []
  | r :: rest => r.matchSets ++ rulesRefs rest

/-- Modelled from the spec: the reference count of a set — the number of Lists
and staged policies currently referencing it (section 3, IPSet). -/
def refCount (st : Store) (n : String) : Nat :=
  (st.sets.filter
    (fun s => s.metadata.kind = SetKind.list ∧ n ∈ s.refs)).length +
  (st.policies.filter (fun pe => n ∈ rulesRefs pe.policy.rules)).length

/-- Apply a function to every store set whose name is in the given list. -/
def updateSetsNamed (st : Store) (ns : List String) (f : IPSet → IPSet) :
    Store :=
  { st with sets := st.sets.map (fun s => if s.metadata.name ∈ ns then f s else s) }

/-- Mark a batch of set names dirty in the Pending Set. -/
def markSetsDirty (p : Pending) (ns : List String) : Pending :=
  { p with updatedSets := ns.foldl (fun acc n => insertName n acc) p.updatedSets }

/-- Mark a policy name dirty in the Pending Set. -/
def markPolicyDirty (p : Pending) (n : String) : Pending :=
  { p with updatedPolicies := insertName n p.updatedPolicies }

/-- The name is bound to an existing set of kind Set (the validity condition
of AddToSet, RemoveFromSet and UpdatePod). -/
def validSetName (st : Store) (n : String) : Bool :=
  match findSet st n with
  | some s => s.metadata.kind = SetKind.set
  | none => false

/-- Whether a set named tgt is reachable from src by following list
references, within the given fuel (used for the cycle check of AddToList). -/
def reaches (st : Store) : Nat → String → String → Bool
  | 0, _, _ => false
  | fuel + 1, src, tgt =>
    src = tgt ||
      match findSet st src with
      | some s => s.refs.any (fun r => reaches st fuel r tgt)
      | none => false

/-- The name is bound to an existing set of kind List. -/
def listOK (st : Store) (ln : String) : Bool :=
  match findSet st ln with
  | some l => l.metadata.kind = SetKind.list
  | none => false

/-- The validity condition of AddToList: the list exists and is a List, every
referenced set exists, and no cycle would be introduced. -/
def addToListOK (st : Store) (ln : String) (names : List String) : Bool :=
  listOK st ln && names.all (fun n => (findSet st n).isSome) &&
    names.all (fun n => !(reaches st (st.sets.length + 1) n ln))

/-- The validity condition of RemoveFromList: the list exists and is a List
and every referenced set exists. -/
def removeFromListOK (st : Store) (ln : String) (names : List String) : Bool :=
  listOK st ln && names.all (fun n => (findSet st n).isSome)

/-! ## Set Store operations (modelled from the spec, section 4.1) -/

/-- Modelled from the spec: CreateIPSet — idempotent creation; an existing set
of the same name is left alone (a kind conflict is logged, not returned); a
new set is inserted empty and marked dirty.  Re-creating a set whose host copy
is still pending deletion cancels the pending deletion (section 4.4, entity
state collapse).  No return error. -/
def CreateIPSet (st : Store) (meta : IPSetMetadata) : Store × Option Err :=
  match findSet st meta.name with
  | some _ => (st, none)
  | none =>
    if meta.name ∈ st.pending.removedSets then
      ({ st with
          sets := ⟨meta, [], [], true⟩ :: st.sets,
          pending :=
            { markSetsDirty st.pending [meta.name] with
                removedSets := st.pending.removedSets.filter (· ≠ meta.name) } },
        none)
    else
      ({ st with
          sets := ⟨meta, [], [], false⟩ :: st.sets,
          pending := markSetsDirty st.pending [meta.name] }, none)

/-- Modelled from the spec: DeleteIPSet — idempotent; removes a
zero-referenced set immediately from the store, staging a host-side deletion
only when the set had been applied; deleting a still-referenced set is
rejected silently (referenced-set invariant).  No return error. -/
def DeleteIPSet (st : Store) (meta : IPSetMetadata) : Store × Option Err :=
  match findSet st meta.name with
  | none => (st, none)
  | some s =>
    if refCount st meta.name ≠ 0 then (st, none)
    else
      ({ st with
          sets := st.sets.filter (fun t => t.metadata.name ≠ meta.name),
          pending :=
            { st.pending with
                updatedSets := st.pending.updatedSets.filter (· ≠ meta.name),
                removedSets :=
                  if s.applied then insertName meta.name st.pending.removedSets
                  else st.pending.removedSets } }, none)

/-- Modelled from the spec: AddToSet — validates every named set first (must
exist and be of kind Set, otherwise ErrUnknownSet with no mutation), then adds
the member to each named set, records the membership in the pod tracker and
marks each affected set dirty. -/
def AddToSet (st : Store) (metas : List IPSetMetadata) (ip podKey : String) :
    Store × Option Err :=
  let names := metas.map (·.name)
  if names.all (validSetName st) then
    let st1 := updateSetsNamed st names
      (fun s => { s with members := insertPair (ip, podKey) s.members })
    let newSets :=
      match findPodIn st.pods podKey with
      | some (_, oldSets) => unionNames oldSets names
      | none => unionNames [] names
    (({ st1 with
        pods := setPod st1.pods podKey (ip, newSets),
        pending := markSetsDirty st1.pending names }), none)
  else (st, some Err.unknownSet)

/-- Modelled from the spec: RemoveFromSet — validates every named set first
(ErrUnknownSet with no mutation otherwise), then removes the member from each
named set, retracts the names from the pod tracker record and marks each
affected set dirty. -/
def RemoveFromSet (st : Store) (metas : List IPSetMetadata)
    (ip podKey : String) : Store × Option Err :=
  let names := metas.map (·.name)
  if names.all (validSetName st) then
    let st1 := updateSetsNamed st names
      (fun s => { s with members := s.members.filter (· ≠ (ip, podKey)) })
    let pods1 :=
      match findPodIn st.pods podKey with
      | some (oldIP, oldSets) =>
        setPod st1.pods podKey (oldIP, oldSets.filter (· ∉ names))
      | none => st1.pods
    (({ st1 with
        pods := pods1,
        pending := markSetsDirty st1.pending names }), none)
  else (st, some Err.unknownSet)

/-- Modelled from the spec: AddToList — fails with ErrUnknownSet (and no
mutation) when the list is missing or not a List, when any referenced set is
missing, or when a cycle would be introduced; otherwise adds the references
and marks the list dirty.  The reference count is derived, so it rises
automatically. -/
def AddToList (st : Store) (listMeta : IPSetMetadata)
    (setMetas : List IPSetMetadata) : Store × Option Err :=
  let ln := listMeta.name
  let names := setMetas.map (·.name)
  if addToListOK st ln names then
    let st1 := updateSetsNamed st [ln]
      (fun s => { s with refs := unionNames s.refs names })
    ({ st1 with pending := markSetsDirty st1.pending [ln] }, none)
  else (st, some Err.unknownSet)

/-- Modelled from the spec: RemoveFromList — fails with ErrUnknownSet (and no
mutation) when the list is missing or not a List or any referenced set is
missing; otherwise removes the references, stages the reference removals for
the fourth apply phase and marks the list dirty. -/
def RemoveFromList (st : Store) (listMeta : IPSetMetadata)
    (setMetas : List IPSetMetadata) : Store × Option Err :=
  let ln := listMeta.name
  let names := setMetas.map (·.name)
  if removeFromListOK st ln names then
    let removed :=
      match findSet st ln with
      | some l => names.filter (· ∈ l.refs)
      | none => []
    let st1 := updateSetsNamed st [ln]
      (fun s => { s with refs := s.refs.filter (· ∉ names) })
    ({ st1 with
        pending :=
          { markSetsDirty st1.pending [ln] with
              refRemovals :=
                st1.pending.refRemovals ++ removed.map (fun n => (ln, n)) } },
      none)
  else (st, some Err.unknownSet)

/-! ## Pod Membership Tracker (modelled from the spec, section 4.2) -/

/-- Remove a member pair from every store set whose name is listed. -/
def removePairFromNamed (st : Store) (ns : List String)
    (pr : String × String) : Store :=
  updateSetsNamed st ns (fun s => { s with members := s.members.filter (· ≠ pr) })

/-- Add the new pod IP to the target sets, record the pod membership and mark
the target sets dirty (the add phase of UpdatePod). -/
def podAddPhase (st : Store) (u : UpdateNPMPod) (recordSets : List String) :
    Store :=
  let st1 := updateSetsNamed st u.targetSets
    (fun s => { s with members := insertPair (u.podIP, u.podKey) s.members })
  { st1 with
      pods := setPod st1.pods u.podKey (u.podIP, recordSets),
      pending := markSetsDirty st1.pending u.targetSets }

/-- Modelled from the spec: UpdatePod — validates the target sets first (same
conditions as AddToSet, ErrUnknownSet with no mutation on failure); then, when
the pod's prior IP differs from the new one, retracts the prior IP from every
set the pod previously belonged to (marking them dirty) before adding the new
IP to the target sets. -/
def UpdatePod (st : Store) (u : UpdateNPMPod) : Store × Option Err :=
  if u.targetSets.all (validSetName st) then
    match findPodIn st.pods u.podKey with
    | some (oldIP, oldSets) =>
      if oldIP = u.podIP then
        (podAddPhase st u (unionNames oldSets u.targetSets), none)
      else
        let str := removePairFromNamed st oldSets (oldIP, u.podKey)
        let str2 := { str with pending := markSetsDirty str.pending oldSets }
        (podAddPhase str2 u u.targetSets, none)
    | none => (podAddPhase st u u.targetSets, none)
  else (st, some Err.unknownSet)

/-! ## Rule-Set Store operations (modelled from the spec, section 4.3) -/

/-- Modelled from the spec: AddPolicy — fails with ErrPolicyExists (and no
mutation) when the name is already present; otherwise stages the policy and
marks it dirty.  Validation of referenced set names is deferred to apply
time.  Re-adding a policy whose host copy is still pending removal cancels
the pending removal. -/
def AddPolicy (st : Store) (pol : NPMNetworkPolicy) : Store × Option Err :=
  match findPolicy st pol.name with
  | some _ => (st, some Err.policyExists)
  | none =>
    let wasApplied := pol.name ∈ st.pending.removedPolicies
    ({ st with
        policies := ⟨pol, wasApplied⟩ :: st.policies,
        pending :=
          { markPolicyDirty st.pending pol.name with
              removedPolicies :=
                st.pending.removedPolicies.filter (· ≠ pol.name) } }, none)

/-- Modelled from the spec: UpdatePolicy — fails with ErrPolicyNotFound (and
no mutation) when the name is absent; otherwise replaces the policy wholesale
and marks it dirty. -/
def UpdatePolicy (st : Store) (pol : NPMNetworkPolicy) : Store × Option Err :=
  match findPolicy st pol.name with
  | none => (st, some Err.policyNotFound)
  | some _ =>
    ({ st with
        policies := st.policies.map
          (fun pe => if pe.policy.name = pol.name then { pe with policy := pol } else pe),
        pending := markPolicyDirty st.pending pol.name }, none)

/-- Modelled from the spec: RemovePolicy — idempotent removal; an absent name
is a no-op, not an error.  Removing a policy whose host copy exists stages a
host-side removal; removing a never-applied policy nets to nothing (section
4.4, entity state collapse). -/
def RemovePolicy (st : Store) (n : String) : Store × Option Err :=
  match findPolicy st n with
  | none => (st, none)
  | some pe =>
    ({ st with
        policies := st.policies.filter (fun q => q.policy.name ≠ n),
        pending :=
          { st.pending with
              updatedPolicies := st.pending.updatedPolicies.filter (· ≠ n),
              removedPolicies :=
                if pe.applied then insertName n st.pending.removedPolicies
                else st.pending.removedPolicies } }, none)

/-! ## Staging operations as one dispatcher -/

/-- Modelled from the spec: the staging operations of the public contract
(sections 4.1 to 4.3), reified so the no-partial-mutation property can be
stated once over all of them. -/
inductive StageOp
  | createIPSet (meta : IPSetMetadata)
  | deleteIPSet (meta : IPSetMetadata)
  | addToSet (metas : List IPSetMetadata) (ip podKey : String)
  | removeFromSet (metas : List IPSetMetadata) (ip podKey : String)
  | addToList (listMeta : IPSetMetadata) (setMetas : List IPSetMetadata)
  | removeFromList (listMeta : IPSetMetadata) (setMetas : List IPSetMetadata)
  | updatePod (u : UpdateNPMPod)
  | addPolicy (pol : NPMNetworkPolicy)
  | updatePolicy (pol : NPMNetworkPolicy)
  | removePolicy (n : String)
deriving DecidableEq, Repr

/-- Run one staging operation against the store. -/
def stage (st : Store) : StageOp → Store × Option Err
  | .createIPSet meta => CreateIPSet st meta
  | .deleteIPSet meta => DeleteIPSet st meta
  | .addToSet metas ip podKey => AddToSet st metas ip podKey
  | .removeFromSet metas ip podKey => RemoveFromSet st metas ip podKey
  | .addToList listMeta setMetas => AddToList st listMeta setMetas
  | .removeFromList listMeta setMetas => RemoveFromList st listMeta setMetas
  | .updatePod u => UpdatePod st u
  | .addPolicy pol => AddPolicy st pol
  | .updatePolicy pol => UpdatePolicy st pol
  | .removePolicy n => RemovePolicy st n

/-! ## Apply Coordinator (modelled from the spec, section 4.4) -/

/-- Modelled from the spec: one instruction of the ordered program handed to
the executor, expressed purely in terms of set names, member keys and rule
descriptors (section 6, executor boundary). -/
inductive Instr
  | applySet (name : String) (members : List (String × String)) (refs : List String)
  | applyPolicy (name : String) (refs : List String)
  | removePolicy (name : String)
  | removeRef (listName : String) (setName : String)
  | deleteSet (name : String)
deriving DecidableEq, Repr

/-- The apply phase of an instruction, in the order mandated by section 4.4
step 3: set creations and membership changes, policy creations and updates,
policy removals, set-reference removals, set deletions. -/
def phase : Instr → Nat
  | .applySet _ _ _ => 1
  | .applyPolicy _ _ => 2
  | .removePolicy _ => 3
  | .removeRef _ _ => 4
  | .deleteSet _ => 5

/-- A pending policy passes apply-time reference validation when every set
name its rules mention exists in the Set Store. -/
def validPolicyB (st : Store) (p : NPMNetworkPolicy) : Bool :=
  (rulesRefs p.rules).all (fun n => (findSet st n).isSome)

/-- The pending updated policies that pass apply-time validation, paired with
their referenced set names; policies with a dangling reference are held back
(section 4.4 step 2). -/
def emittedPolicies (st : Store) : List (String × List String) :=
  st.pending.updatedPolicies.filterMap (fun n =>
    match findPolicy st n with
    | some pe =>
      if validPolicyB st pe.policy then some (n, rulesRefs pe.policy.rules)
      else none
    | none => none)

/-- The pending updated set names that still exist in the store (a set
created and deleted before any apply nets out). -/
def liveUpdatedSets (st : Store) : List String :=
  st.pending.updatedSets.filter (fun n => (findSet st n).isSome)

/-- The members and list references a set update submits for a set name. -/
def setArgsFor (st : Store) (n : String) :
    List (String × String) × List String :=
  match findSet st n with
  | some s => (s.members, s.refs)
  | none => ([], [])

/-- Modelled from the spec: the ordered batch of section 4.4 step 3 — set
creations and membership changes first, then validated policy creations and
updates, then policy removals, then set-reference removals, then set
deletions last. -/
def buildProgram (st : Store) : List Instr :=
  (liveUpdatedSets st).map (fun n =>
    Instr.applySet n (setArgsFor st n).1 (setArgsFor st n).2) ++
  ((emittedPolicies st).map (fun pr => Instr.applyPolicy pr.1 pr.2) ++
  (st.pending.removedPolicies.map Instr.removePolicy ++
  (st.pending.refRemovals.map (fun pr => Instr.removeRef pr.1 pr.2) ++
  st.pending.removedSets.map Instr.deleteSet)))

/-- Whether the Pending Set holds nothing to flush. -/
def pendingIsEmpty (p : Pending) : Bool :=
  p.updatedSets.isEmpty && p.updatedPolicies.isEmpty &&
    p.removedPolicies.isEmpty && p.refRemovals.isEmpty && p.removedSets.isEmpty

/-- The pending updated policies held back by apply-time validation. -/
def heldBack (st : Store) : List String :=
  st.pending.updatedPolicies.filter (fun n =>
    match findPolicy st n with
    | some pe => !(validPolicyB st pe.policy)
    | none => false)

/-- The store after a successful executor submission: everything submitted is
marked applied and the Pending Set is cleared, except that held-back policies
remain pending. -/
def applySuccessStore (st : Store) : Store :=
  { st with
      sets := st.sets.map (fun s =>
        if s.metadata.name ∈ st.pending.updatedSets then
          { s with applied := true }
        else s),
      policies := st.policies.map (fun pe =>
        if pe.policy.name ∈ st.pending.updatedPolicies ∧
            pe.policy.name ∉ heldBack st then
          { pe with applied := true }
        else pe),
      pending :=
        { updatedSets := [], updatedPolicies := heldBack st,
          removedPolicies := [], refRemovals := [], removedSets := [] } }

/-- Modelled from the spec: ApplyDataPlane (section 4.4) — snapshot the
Pending Set and return success immediately when it is empty; otherwise build
the ordered program, submit it to the executor in one call, and on success
clear the dirty marks of everything submitted (held-back policies remain
pending and surface as a validation error), while on executor failure all
state is left dirty and the executor error is returned.  The third component
records the submission handed to the executor, if any. -/
def ApplyDataPlane (exec : List Instr → Bool) (st : Store) :
    Store × Option Err × Option (List Instr) :=
  if pendingIsEmpty st.pending then (st, none, none)
  else
    let prog := buildProgram st
    if exec prog then
      (applySuccessStore st,
        if (heldBack st).isEmpty then none else some Err.validation, some prog)
    else (st, some Err.executor, some prog)

/-! ## Executor-side program semantics -/

/-- The host packet-filter state the executor manipulates: the set names that
exist on the host and the rule-sets present on the host, each with the set
names its rules reference. -/
structure HostState where
  hostSets : List String
  hostPolicies : List (String × List String)
deriving DecidableEq, Repr

/-- One executor step.  Creating or updating a rule-set demands that every
set it references already exists on the host; deleting a set demands that no
rule-set still on the host references it.  A violated demand is the failure
the ordering of section 4.4 step 3 is designed to exclude. -/
def step (h : HostState) : Instr → Option HostState
  | .applySet n _ _ => some { h with hostSets := insertName n h.hostSets }
  | .applyPolicy n refs =>
    if ∀ r ∈ refs, r ∈ h.hostSets then
      some { h with hostPolicies := (n, refs) :: h.hostPolicies.filter (fun q => q.1 ≠ n) }
    else none
  | .removePolicy n =>
    some { h with hostPolicies := h.hostPolicies.filter (fun q => q.1 ≠ n) }
  | .removeRef _ _ => some h
  | .deleteSet n =>
    if ∀ q ∈ h.hostPolicies, n ∉ q.2 then
      some { h with hostSets := h.hostSets.filter (· ≠ n) }
    else none

/-- Run a program on the host, failing as soon as one step's demand is
violated. -/
def runProg (h : HostState) : List Instr → Option HostState
  | [] => some h
  | i :: rest =>
    match step h i with
    | none => none
    | some h2 => runProg h2 rest

/-- A program is safe for a host state when every step's demand holds. -/
def execOK (h : HostState) (prog : List Instr) : Bool :=
  (runProg h prog).isSome

/-- The invariant tying the in-memory store to the host state.  It holds for
the fresh engine and is preserved by every staging operation and every apply
(theorems INV_empty, INV_stage, INV_applyStep, reachable_INV): every store
set is on the host or pending creation; every host rule-set is pending
removal or has an applied store entry of the same name, with equal references
unless it is pending an update; store policy names are unique; a set pending
deletion is out of the store, and any store policy still referencing it is
itself pending an update; no store policy is pending removal. -/
def INV (st : Store) (h : HostState) : Prop :=
  (∀ s ∈ st.sets, s.metadata.name ∈ h.hostSets ∨
    s.metadata.name ∈ st.pending.updatedSets) ∧
  (∀ q ∈ h.hostPolicies, q.1 ∈ st.pending.removedPolicies ∨
    ∃ pe ∈ st.policies, pe.policy.name = q.1 ∧ pe.applied = true ∧
      (rulesRefs pe.policy.rules = q.2 ∨ q.1 ∈ st.pending.updatedPolicies)) ∧
  (st.policies.map (fun pe => pe.policy.name)).Nodup ∧
  (∀ n ∈ st.pending.removedSets, (findSet st n).isNone) ∧
  (∀ n ∈ st.pending.removedSets, ∀ pe ∈ st.policies,
    n ∉ rulesRefs pe.policy.rules ∨
      pe.policy.name ∈ st.pending.updatedPolicies) ∧
  (∀ pe ∈ st.policies, pe.policy.name ∉ st.pending.removedPolicies)

instance (st : Store) (h : HostState) : Decidable (INV st h) := by
  unfold INV
  infer_instance

/-- No policy held back by validation at this flush has an applied host copy:
the side condition under which the flush's set deletions are safe.  It fails
exactly in the shadowing situation of the counterexample below, where a
dangling pending update hides a stale applied rule-set. -/
def noStaleHeldBack (st : Store) : Prop :=
  ∀ n ∈ heldBack st, ∀ pe ∈ st.policies,
    pe.policy.name = n → pe.applied = false

instance (st : Store) : Decidable (noStaleHeldBack st) := by
  unfold noStaleHeldBack
  infer_instance

/-! ## The combined engine and host semantics

The engine's own executor is the program semantics below: an apply submits
the built batch, and on success the host advances by running it, while on
failure the host is unchanged (the executor call is atomic-or-nothing,
section 4.4 step 5). -/

/-- The host of a freshly initialized node. -/
def emptyHost : HostState := ⟨[], []⟩

/-- One apply against the engine and its host: the store moves as
ApplyDataPlane dictates with the real executor, and the host runs the
flushed program when it succeeds. -/
def applyStep (st : Store) (h : HostState) : Store × HostState :=
  ((ApplyDataPlane (fun p => execOK h p) st).1,
    if pendingIsEmpty st.pending then h
    else
      match runProg h (buildProgram st) with
      | some h2 => h2
      | none => h)

/-- A command against the engine: a staging operation or an apply. -/
inductive DPCmd
  | op (o : StageOp)
  | apply
deriving DecidableEq, Repr

/-- One engine/host step. -/
def dpStep : Store × HostState → DPCmd → Store × HostState
  | (st, h), DPCmd.op o => ((stage st o).1, h)
  | (st, h), DPCmd.apply => applyStep st h

/-- Run a command sequence from the fresh engine and host. -/
def dpRun (cmds : List DPCmd) : Store × HostState :=
  cmds.foldl dpStep (emptyStore, emptyHost)

/-- A store/host pair the engine can actually be in: reached from the fresh
engine by some sequence of staging operations and applies. -/
def Reachable (st : Store) (h : HostState) : Prop :=
  ∃ cmds : List DPCmd, dpRun cmds = (st, h)

/-! ## The GenericDataplane public contract

Transcribed from the generated mock of `npm/pkg/dataplane/types.go`
(src/unnamed/part_000): the thirteen methods of the interface, their Go
parameter types and whether they return an error. -/

/-- The operations of the GenericDataplane interface, one constructor per
method of the generated mock. -/
inductive DPOp
  | initializeDataPlane
  | resetDataPlane
  | createIPSet
  | deleteIPSet
  | addToSet
  | removeFromSet
  | addToList
  | removeFromList
  | updatePod
  | addPolicy
  | updatePolicy
  | removePolicy
  | applyDataPlane
deriving DecidableEq, Repr

/-- Every operation of the GenericDataplane interface. -/
def allDPOps : List DPOp :=
  [.initializeDataPlane, .resetDataPlane, .createIPSet, .deleteIPSet,
   .addToSet, .removeFromSet, .addToList, .removeFromList, .updatePod,
   .addPolicy, .updatePolicy, .removePolicy, .applyDataPlane]

/-- The Go parameter types appearing in the interface, up to the evident
identifications: a set metadata pointer identifies a set, a slice of set
metadata pointers identifies a list of sets, strings carry IPs, pod keys and
policy names. -/
inductive GoTy
  | ipSetMetadataPtr
  | ipSetMetadataPtrSlice
  | str
  | policyPtr
  | podUpdatePtr
deriving DecidableEq, Repr

/-- The parameter list of each mock method, transcribed from
src/unnamed/part_000. -/
def mockParams : DPOp → List GoTy
  | .initializeDataPlane => []
  | .resetDataPlane => []
  | .createIPSet => [.ipSetMetadataPtr]
  | .deleteIPSet => [.ipSetMetadataPtr]
  | .addToSet => [.ipSetMetadataPtrSlice, .str, .str]
  | .removeFromSet => [.ipSetMetadataPtrSlice, .str, .str]
  | .addToList => [.ipSetMetadataPtr, .ipSetMetadataPtrSlice]
  | .removeFromList => [.ipSetMetadataPtr, .ipSetMetadataPtrSlice]
  | .updatePod => [.podUpdatePtr]
  | .addPolicy => [.policyPtr]
  | .updatePolicy => [.policyPtr]
  | .removePolicy => [.str]
  | .applyDataPlane => []

/-- Whether each mock method returns an error, transcribed from
src/unnamed/part_000: CreateIPSet and DeleteIPSet return nothing, every other
method returns an error. -/
def mockReturnsErr : DPOp → Bool
  | .createIPSet => false
  | .deleteIPSet => false
  | _ => true

/-- The inputs column of the interface table of spec section 6, written with
the same type tags: set metadata, set-name list (a slice of set identities),
IP and pod key strings, a policy, a pod update record, a policy name. -/
def specTableParams : DPOp → List GoTy
  | .initializeDataPlane => []
  | .resetDataPlane => []
  | .createIPSet => [.ipSetMetadataPtr]
  | .deleteIPSet => [.ipSetMetadataPtr]
  | .addToSet => [.ipSetMetadataPtrSlice, .str, .str]
  | .removeFromSet => [.ipSetMetadataPtrSlice, .str, .str]
  | .addToList => [.ipSetMetadataPtr, .ipSetMetadataPtrSlice]
  | .removeFromList => [.ipSetMetadataPtr, .ipSetMetadataPtrSlice]
  | .updatePod => [.podUpdatePtr]
  | .addPolicy => [.policyPtr]
  | .updatePolicy => [.policyPtr]
  | .removePolicy => [.str]
  | .applyDataPlane => []

/-- The result column of the interface table of spec section 6: CreateIPSet
and DeleteIPSet have no result, every other operation yields an error. -/
def specTableReturnsErr : DPOp → Bool
  | .createIPSet => false
  | .deleteIPSet => false
  | _ => true

/-! ## The CNS IPAM invoker

Transcribed from `cni/network/invoker_cns.go`.  Out-of-repository helpers
(the CNS client, `GetEndpointID`, `net.ParseIP`, `net.ParseCIDR`) enter as
parameters; `json.Marshal` of the two-string `KubernetesPodInfo` cannot fail
in Go, so it is a total function here; the iptables rule text built by
`setHostOptions` is recorded by its parameters rather than as formatted
strings. -/

/-- The pod identity marshalled into the orchestrator context
(cns.KubernetesPodInfo). -/
structure KubernetesPodInfo where
  podName : String
  podNamespace : String
deriving DecidableEq, Repr

/-- The CNI command arguments (cniSkel.CmdArgs), reduced to the fields the
invoker reads. -/
structure CmdArgs where
  containerID : String
  netns : String
  ifName : String
deriving DecidableEq, Repr

/-- The request sent to CNS (cns.IPConfigRequest). -/
structure IPConfigRequest where
  orchestratorContext : String
  podInterfaceID : String
  infraContainerID : String
  desiredIPAddress : String
deriving DecidableEq, Repr

/-- A parsed network (net.IPNet), an address and a mask. -/
structure IPNetM where
  addr : String
  mask : String
deriving DecidableEq, Repr

/-- The fields the invoker extracts from the CNS response (IPv4ResultInfo in
invoker_cns.go). -/
structure IPv4ResultInfo where
  podIPAddress : String
  ncSubnetLen : Nat
  ncPrimaryIP : String
  ncGatewayIPAddress : String
  hostSubnet : String
  hostPrimaryIP : String
  hostGateway : String
deriving DecidableEq, Repr

/-- The CNS response body, reduced to the fields the invoker reads
(response.PodIpInfo). -/
structure RequestIPResponse where
  podIPAddress : String
  ncSubnetLen : Nat
  ncPrimaryIP : String
  ncGatewayIPAddress : String
  hostSubnet : String
  hostPrimaryIP : String
  hostGateway : String
deriving DecidableEq, Repr

/-- One IP config of the CNI result (cniTypesCurr.IPConfig). -/
structure ResultIPConfig where
  version : String
  address : IPNetM
  gateway : String
deriving DecidableEq, Repr

/-- One route of the CNI result (cniTypes.Route). -/
structure ResultRoute where
  dst : IPNetM
  gw : String
deriving DecidableEq, Repr

/-- The CNI result (cniTypesCurr.Result), reduced to the fields the invoker
fills. -/
structure CNIResult where
  ips : List ResultIPConfig
  routes : List ResultRoute
deriving DecidableEq, Repr

/-- A value stored in the options map: the SNAT IP, the host routes, or the
iptables entries recorded by the parameters they are built from. -/
inductive OptValue
  | snatIP (ip : String)
  | routes (rs : List ResultRoute)
  | ipTablesFor (ncSubnet : IPNetM) (ncPrimaryIP hostPrimaryIP : String)
deriving DecidableEq, Repr

/-- The options map threaded through Add (Go map, modelled as an association
list updated in place). -/
def OptionsMap := List (String × OptValue)
deriving DecidableEq

/-- Write a key into the options map, replacing any previous binding. -/
def optSet (m : OptionsMap) (k : String) (v : OptValue) : OptionsMap :=
  (k, v) :: m.filter (fun q => q.1 ≠ k)

/-- The key network.SNATIPKey. -/
def snatIPKey : String := "snatIP"

/-- The key network.RoutesKey. -/
def routesKey : String := "routes"

/-- The key network.IPTablesKey. -/
def ipTablesKey : String := "iptables"

/-- network.Ipv4DefaultRouteDstPrefix (0.0.0.0/0). -/
def ipv4DefaultRouteDst : IPNetM := ⟨"0.0.0.0", "/0"⟩

/-- The errors of the invoker: errEmptyCNIArgs and errEmtpyHostSubnetPrefix
from invoker_cns.go, plus the wrapped failures of its fmt.Errorf returns. -/
inductive CNIErr
  | emptyCNIArgs
  | emptyHostSubnetPfx
  | cnsFailure (msg : String)
  | invalidGateway (addr : String)
  | unparsableIP (addr : String)
  | hostSubnetParseErr (s : String)
  | invalidHostIP (addr : String)
  | invalidHostGateway (addr : String)
  | releaseFailed (msg : String)
deriving DecidableEq, Repr

/-- The out-of-repository collaborators of the invoker, taken as parameters:
endpoint-id construction and net address parsing. -/
structure NetEnv where
  getEndpointID : CmdArgs → String
  parseIP : String → Option String
  parseCIDR : String → Option (String × IPNetM)
  marshalPodInfo : KubernetesPodInfo → String

/-- The CNS client boundary (cnsclient): request an IP for a pod, release an
IP for a pod. -/
structure CNSClient where
  requestIPAddress : IPConfigRequest → Except String RequestIPResponse
  releaseIPAddress : IPConfigRequest → Option String

/-- A call issued to the CNS client, recorded for the transcript. -/
inductive CNSCall
  | requestIP (req : IPConfigRequest)
  | releaseIP (req : IPConfigRequest)
deriving DecidableEq, Repr

/-- The invoker state (CNSIPAMInvoker). -/
structure CNSIPAMInvoker where
  podName : String
  podNamespace : String
deriving DecidableEq, Repr

/-- setHostOptions from invoker_cns.go: parse the host subnet, reject a nil
host subnet out-parameter, parse host IP and gateway, then record the host
route and the iptables entries in the options map. -/
def setHostOptions (env : NetEnv) (hostSubnetPfx : Option IPNetM)
    (ncSubnet : IPNetM) (options : OptionsMap) (info : IPv4ResultInfo) :
    Except CNIErr (IPNetM × OptionsMap) :=
  match env.parseCIDR info.hostSubnet with
  | none => Except.error (CNIErr.hostSubnetParseErr info.hostSubnet)
  | some (_, hostIPNet) =>
    match hostSubnetPfx with
    | none => Except.error CNIErr.emptyHostSubnetPfx
    | some _ =>
      match env.parseIP info.hostPrimaryIP with
      | none => Except.error (CNIErr.invalidHostIP info.hostPrimaryIP)
      | some _ =>
        match env.parseIP info.hostGateway with
        | none => Except.error (CNIErr.invalidHostGateway info.hostGateway)
        | some hostGw =>
          let options1 := optSet options routesKey
            (OptValue.routes [⟨ncSubnet, hostGw⟩])
          let options2 := optSet options1 ipTablesKey
            (OptValue.ipTablesFor ncSubnet info.ncPrimaryIP info.hostPrimaryIP)
          Except.ok (hostIPNet, options2)

/-- Add from invoker_cns.go: marshal the pod identity, reject nil command
arguments with errEmptyCNIArgs, request an IP from CNS, then build the CNI
result and host options.  Returns the result with the updated host subnet
out-parameter, the options map as mutated so far, and the transcript of CNS
calls. -/
def CNSIPAMInvokerAdd (env : NetEnv) (client : CNSClient)
    (invoker : CNSIPAMInvoker) (args : Option CmdArgs)
    (hostSubnetPfx : Option IPNetM) (options : OptionsMap) :
    Except CNIErr (CNIResult × IPNetM) × OptionsMap × List CNSCall :=
  let podInfo : KubernetesPodInfo := ⟨invoker.podName, invoker.podNamespace⟩
  let orchestratorContext := env.marshalPodInfo podInfo
  match args with
  | none => (Except.error CNIErr.emptyCNIArgs, options, [])
  | some a =>
    let ipconfig : IPConfigRequest :=
      ⟨orchestratorContext, env.getEndpointID a, a.containerID, ""⟩
    match client.requestIPAddress ipconfig with
    | Except.error e =>
      (Except.error (CNIErr.cnsFailure e), options, [CNSCall.requestIP ipconfig])
    | Except.ok response =>
      let info : IPv4ResultInfo :=
        ⟨response.podIPAddress, response.ncSubnetLen, response.ncPrimaryIP,
         response.ncGatewayIPAddress, response.hostSubnet,
         response.hostPrimaryIP, response.hostGateway⟩
      let options1 := optSet options snatIPKey (OptValue.snatIP info.ncPrimaryIP)
      match env.parseIP info.ncGatewayIPAddress with
      | none =>
        (Except.error (CNIErr.invalidGateway info.ncGatewayIPAddress),
          options1, [CNSCall.requestIP ipconfig])
      | some ncgw =>
        match env.parseCIDR
            (info.podIPAddress ++ "/" ++ toString info.ncSubnetLen) with
        | none =>
          (Except.error (CNIErr.unparsableIP info.podIPAddress),
            options1, [CNSCall.requestIP ipconfig])
        | some (ip, ncipnet) =>
          let resultIPnet : IPNetM := ⟨ip, ncipnet.mask⟩
          let result : CNIResult :=
            ⟨[⟨"4", resultIPnet, ncgw⟩], [⟨ipv4DefaultRouteDst, ncgw⟩]⟩
          match setHostOptions env hostSubnetPfx ncipnet options1 info with
          | Except.error e => (Except.error e, options1, [CNSCall.requestIP ipconfig])
          | Except.ok (newPfx, options2) =>
            (Except.ok (result, newPfx), options2, [CNSCall.requestIP ipconfig])

/-- Delete from invoker_cns.go: marshal the pod identity, reject nil command
arguments with errEmptyCNIArgs, then ask CNS to release the IP (passing the
desired address when one is supplied).  Returns the outcome and the
transcript of CNS calls. -/
def CNSIPAMInvokerDelete (env : NetEnv) (client : CNSClient)
    (invoker : CNSIPAMInvoker) (address : Option IPNetM)
    (args : Option CmdArgs) : Except CNIErr Unit × List CNSCall :=
  let podInfo : KubernetesPodInfo := ⟨invoker.podName, invoker.podNamespace⟩
  let orchestratorContext := env.marshalPodInfo podInfo
  match args with
  | none => (Except.error CNIErr.emptyCNIArgs, [])
  | some a =>
    let req0 : IPConfigRequest :=
      ⟨orchestratorContext, env.getEndpointID a, a.containerID, ""⟩
    let req :=
      match address with
      | some ad => { req0 with desiredIPAddress := ad.addr }
      | none => req0
    match client.releaseIPAddress req with
    | some e => (Except.error (CNIErr.releaseFailed e), [CNSCall.releaseIP req])
    | none => (Except.ok (), [CNSCall.releaseIP req])

/-! ## Claim theorems: staging behavior -/

/-- Claim C3: every staging operation (CreateIPSet, DeleteIPSet, AddToSet,
RemoveFromSet, AddToList, RemoveFromList, UpdatePod, AddPolicy, UpdatePolicy,
RemovePolicy) that returns an error leaves the in-memory store exactly as it
was before the call — no partial mutation on error. -/
theorem stage_error_no_mutation (st : Store) (op : StageOp) (e : Err)
    (h : (stage st op).2 = some e) : (stage st op).1 = st := by
  cases op with
  | createIPSet meta =>
    rcases hfs : findSet st meta.name with _ | s
    · by_cases hr : meta.name ∈ st.pending.removedSets
      · simp [stage, CreateIPSet, hfs, hr] at h
      · simp [stage, CreateIPSet, hfs, hr] at h
    · simp [stage, CreateIPSet, hfs] at h
  | deleteIPSet meta =>
    rcases hfs : findSet st meta.name with _ | s
    · simp [stage, DeleteIPSet, hfs] at h
    · by_cases hr : refCount st meta.name ≠ 0
      · simp [stage, DeleteIPSet, hfs, hr] at h
      · simp [stage, DeleteIPSet, hfs, hr] at h
  | addToSet metas ip podKey =>
    by_cases hc : (metas.map (fun m => m.name)).all (validSetName st) = true
    · simp [stage, AddToSet, hc] at h
    · simp [stage, AddToSet, hc]
  | removeFromSet metas ip podKey =>
    by_cases hc : (metas.map (fun m => m.name)).all (validSetName st) = true
    · simp [stage, RemoveFromSet, hc] at h
    · simp [stage, RemoveFromSet, hc]
  | addToList listMeta setMetas =>
    by_cases hc :
        addToListOK st listMeta.name (setMetas.map (fun m => m.name)) = true
    · simp [stage, AddToList, hc] at h
    · simp [stage, AddToList, hc]
  | removeFromList listMeta setMetas =>
    by_cases hc :
        removeFromListOK st listMeta.name (setMetas.map (fun m => m.name)) = true
    · simp [stage, RemoveFromList, hc] at h
    · simp [stage, RemoveFromList, hc]
  | updatePod u =>
    by_cases hc : u.targetSets.all (validSetName st) = true
    · rcases hp : findPodIn st.pods u.podKey with _ | ⟨oldIP, oldSets⟩
      · simp [stage, UpdatePod, hc, hp] at h
      · by_cases hip : oldIP = u.podIP
        · simp [stage, UpdatePod, hc, hp, hip] at h
        · simp [stage, UpdatePod, hc, hp, hip] at h
    · simp [stage, UpdatePod, hc]
  | addPolicy pol =>
    rcases hf : findPolicy st pol.name with _ | pe
    · simp [stage, AddPolicy, hf] at h
    · simp [stage, AddPolicy, hf]
  | updatePolicy pol =>
    rcases hf : findPolicy st pol.name with _ | pe
    · simp [stage, UpdatePolicy, hf]
    · simp [stage, UpdatePolicy, hf] at h
  | removePolicy n =>
    rcases hf : findPolicy st n with _ | pe
    · simp [stage, RemovePolicy, hf] at h
    · simp [stage, RemovePolicy, hf] at h

/-- Witness for C3: AddToSet against a fresh store fails with ErrUnknownSet
and leaves the store untouched. -/
theorem stage_error_no_mutation_witness :
    (stage emptyStore
      (StageOp.addToSet [⟨"ns-a-pods", SetKind.set⟩] "10.0.0.5" "pod-1")).2 =
        some Err.unknownSet ∧
    (stage emptyStore
      (StageOp.addToSet [⟨"ns-a-pods", SetKind.set⟩] "10.0.0.5" "pod-1")).1 =
        emptyStore :=
  ⟨by decide, stage_error_no_mutation emptyStore
    (StageOp.addToSet [⟨"ns-a-pods", SetKind.set⟩] "10.0.0.5" "pod-1")
    Err.unknownSet (by decide)⟩

/-- Claim C4: DeleteIPSet removes a set only when its reference count is
zero; a set still referenced by a List or by a staged policy has a positive
reference count and DeleteIPSet is a complete no-op on it, so the set stays in
the store. -/
theorem DeleteIPSet_referenced_noop (st : Store) (meta : IPSetMetadata)
    (h : (∃ l ∈ st.sets, l.metadata.kind = SetKind.list ∧ meta.name ∈ l.refs) ∨
         (∃ pe ∈ st.policies, meta.name ∈ rulesRefs pe.policy.rules)) :
    refCount st meta.name ≠ 0 ∧ DeleteIPSet st meta = (st, none) := by
  have hrc : refCount st meta.name ≠ 0 := by
    rcases h with ⟨l, hl, hk, hm⟩ | ⟨pe, hpe, hm⟩
    · have hmem : l ∈ st.sets.filter
          (fun s => s.metadata.kind = SetKind.list ∧ meta.name ∈ s.refs) := by
        rw [List.mem_filter]
        exact ⟨hl, by simp [hk, hm]⟩
      have hlen := List.length_pos_of_mem hmem
      unfold refCount
      omega
    · have hmem : pe ∈ st.policies.filter
          (fun q => meta.name ∈ rulesRefs q.policy.rules) := by
        rw [List.mem_filter]
        exact ⟨hpe, by simp [hm]⟩
      have hlen := List.length_pos_of_mem hmem
      unfold refCount
      omega
  refine ⟨hrc, ?_⟩
  rcases hfs : findSet st meta.name with _ | s
  · simp [DeleteIPSet, hfs]
  · simp [DeleteIPSet, hfs, hrc]

/-- A store with one Set "a", one List "L" referencing "a", and no policies. -/
def referencedStore : Store :=
  { sets := [⟨⟨"a", SetKind.set⟩, [], [], true⟩,
             ⟨⟨"L", SetKind.list⟩, [], ["a"], true⟩],
    pods := [], policies := [], pending := ⟨[], [], [], [], []⟩ }

/-- Witness for C4: deleting the set "a" still referenced by the list "L"
leaves the store untouched. -/
theorem DeleteIPSet_referenced_noop_witness :
    ((∃ l ∈ referencedStore.sets,
        l.metadata.kind = SetKind.list ∧ "a" ∈ l.refs) ∨
      (∃ pe ∈ referencedStore.policies, "a" ∈ rulesRefs pe.policy.rules)) ∧
    DeleteIPSet referencedStore ⟨"a", SetKind.set⟩ = (referencedStore, none) :=
  ⟨by decide,
    (DeleteIPSet_referenced_noop referencedStore ⟨"a", SetKind.set⟩ (by decide)).2⟩

/-- Claim C5: whenever the Pending Set is empty, ApplyDataPlane hands nothing
to the executor, returns success and leaves all store state unchanged. -/
theorem ApplyDataPlane_empty_noop (exec : List Instr → Bool) (st : Store)
    (h : pendingIsEmpty st.pending = true) :
    ApplyDataPlane exec st = (st, none, none) := by
  simp [ApplyDataPlane, h]

/-- Witness for C5: applying a fresh store is a successful no-op. -/
theorem ApplyDataPlane_empty_noop_witness :
    pendingIsEmpty emptyStore.pending = true ∧
    ApplyDataPlane (fun _ => true) emptyStore = (emptyStore, none, none) :=
  ⟨by decide, ApplyDataPlane_empty_noop (fun _ => true) emptyStore (by decide)⟩

/-- Claim C6: AddPolicy fails with ErrPolicyExists exactly when the name is
already present, and on an absent name it stages the policy and returns no
error. -/
theorem AddPolicy_spec (st : Store) (pol : NPMNetworkPolicy) :
    ((AddPolicy st pol).2 = some Err.policyExists ↔
      (findPolicy st pol.name).isSome = true) ∧
    ((findPolicy st pol.name).isSome = false →
      (AddPolicy st pol).2 = none ∧
        (findPolicy (AddPolicy st pol).1 pol.name).isSome = true) := by
  rcases hf : findPolicy st pol.name with _ | pe
  · refine ⟨by simp [AddPolicy, hf], fun _ => ⟨by simp [AddPolicy, hf], ?_⟩⟩
    have hf2 : findPolicyIn st.policies pol.name = none := hf
    simp [AddPolicy, findPolicy, hf2, findPolicyIn]
  · exact ⟨by simp [AddPolicy, hf], fun hcontra => by simp at hcontra⟩

/-- A small policy referencing the set "ns-a-pods". -/
def allowAPolicy : NPMNetworkPolicy :=
  ⟨"allow-a", [⟨["ns-a-pods"], none, none, true⟩]⟩

/-- Witness for C6: AddPolicy on a freshly constructed store returns no error
and stages the policy. -/
theorem AddPolicy_spec_witness :
    (AddPolicy emptyStore allowAPolicy).2 = none ∧
    (findPolicy (AddPolicy emptyStore allowAPolicy).1 allowAPolicy.name).isSome
      = true :=
  (AddPolicy_spec emptyStore allowAPolicy).2 (by decide)

/-- Claim C7: RemovePolicy on an absent name is a no-op that returns no
error (idempotent removal). -/
theorem RemovePolicy_absent_noop (st : Store) (n : String)
    (h : findPolicy st n = none) : RemovePolicy st n = (st, none) := by
  simp [RemovePolicy, h]

/-- Witness for C7: RemovePolicy "test" on a freshly constructed store, the
scenario of TestRemovePolicy, returns no error and changes nothing. -/
theorem RemovePolicy_absent_noop_witness :
    findPolicy emptyStore "test" = none ∧
    RemovePolicy emptyStore "test" = (emptyStore, none) :=
  ⟨by decide, RemovePolicy_absent_noop emptyStore "test" (by decide)⟩

/-- Claim C8: the GenericDataplane contract is exactly the thirteen
operations of the interface table with the listed inputs, and CreateIPSet and
DeleteIPSet are the only operations without an error result. -/
theorem genericDataplane_contract :
    allDPOps.length = 13 ∧ allDPOps.Nodup ∧ (∀ op : DPOp, op ∈ allDPOps) ∧
    (∀ op : DPOp, mockParams op = specTableParams op) ∧
    (∀ op : DPOp, mockReturnsErr op = specTableReturnsErr op) ∧
    (∀ op : DPOp, mockReturnsErr op = false ↔
      (op = DPOp.createIPSet ∨ op = DPOp.deleteIPSet)) := by
  refine ⟨rfl, by decide, ?_, ?_, ?_, ?_⟩ <;> intro op <;> cases op <;>
    simp [allDPOps, mockParams, specTableParams, mockReturnsErr,
      specTableReturnsErr]

/-- Claim C10: Add and Delete of the CNS IPAM invoker, called with nil CNI
command arguments, return errEmptyCNIArgs, issue no request to the CNS
client, and leave the options map untouched. -/
theorem cns_invoker_nil_args (env : NetEnv) (client : CNSClient)
    (invoker : CNSIPAMInvoker) (hostSubnetPfx : Option IPNetM)
    (options : OptionsMap) (address : Option IPNetM) :
    CNSIPAMInvokerAdd env client invoker none hostSubnetPfx options =
      (Except.error CNIErr.emptyCNIArgs, options, []) ∧
    CNSIPAMInvokerDelete env client invoker address none =
      (Except.error CNIErr.emptyCNIArgs, []) :=
  ⟨rfl, rfl⟩

/-! ## Membership lemmas for the pod tracker -/

/-- Membership in an insertPair result. -/
theorem mem_insertPair_iff (pr p : String × String) (l : List (String × String)) :
    p ∈ insertPair pr l ↔ p = pr ∨ p ∈ l := by
  by_cases hin : pr ∈ l
  · simp only [insertPair, if_pos hin]
    constructor
    · exact Or.inr
    · rintro (rfl | hp)
      · exact hin
      · exact hp
  · simp [insertPair, if_neg hin, List.mem_cons]

/-- Membership in an insertName result. -/
theorem mem_insertName_iff (n x : String) (l : List String) :
    x ∈ insertName n l ↔ x = n ∨ x ∈ l := by
  by_cases hin : n ∈ l
  · simp only [insertName, if_pos hin]
    constructor
    · exact Or.inr
    · rintro (rfl | hx)
      · exact hin
      · exact hx
  · simp [insertName, if_neg hin, List.mem_cons]

/-- Membership in a union of name lists. -/
theorem mem_unionNames (x : String) (a b : List String) :
    x ∈ unionNames a b ↔ x ∈ a ∨ x ∈ b := by
  induction b generalizing a with
  | nil => simp [unionNames]
  | cons n b ih =>
    rw [show unionNames a (n :: b) = unionNames (insertName n a) b from rfl,
      ih, mem_insertName_iff, List.mem_cons]
    tauto

/-- Sets after an updateSetsNamed are images of the original sets. -/
theorem mem_updateSetsNamed (st : Store) (ns : List String) (f : IPSet → IPSet)
    (s' : IPSet) :
    s' ∈ (updateSetsNamed st ns f).sets ↔
      ∃ s ∈ st.sets, (if s.metadata.name ∈ ns then f s else s) = s' := by
  simp [updateSetsNamed, List.mem_map]

/-- Where a member pair in a set can come from after adding a pair to the
named sets: it is the added pair (and the set is one of the named ones), or it
was already a member of the set of the same name. -/
theorem addPair_members (st : Store) (ns : List String) (pr : String × String)
    (s' : IPSet)
    (hs' : s' ∈ (updateSetsNamed st ns
      (fun s => { s with members := insertPair pr s.members })).sets)
    (p : String × String) (hp : p ∈ s'.members) :
    (p = pr ∧ s'.metadata.name ∈ ns) ∨
      ∃ s ∈ st.sets, s.metadata.name = s'.metadata.name ∧ p ∈ s.members := by
  rcases (mem_updateSetsNamed st ns _ s').1 hs' with ⟨s, hs, heq⟩
  by_cases hn : s.metadata.name ∈ ns
  · rw [if_pos hn] at heq
    subst heq
    rcases (mem_insertPair_iff pr p s.members).1 hp with rfl | hmem
    · exact Or.inl ⟨rfl, hn⟩
    · exact Or.inr ⟨s, hs, rfl, hmem⟩
  · rw [if_neg hn] at heq
    subst heq
    exact Or.inr ⟨s, hs, rfl, hp⟩

/-- Where a member pair in a set can come from after removing a pair from the
named sets: it was already a member of the set of the same name, and it is not
the removed pair sitting in one of the named sets. -/
theorem removePair_members (st : Store) (ns : List String)
    (pr : String × String) (s' : IPSet)
    (hs' : s' ∈ (removePairFromNamed st ns pr).sets)
    (p : String × String) (hp : p ∈ s'.members) :
    (∃ s ∈ st.sets, s.metadata.name = s'.metadata.name ∧ p ∈ s.members) ∧
      ¬(p = pr ∧ s'.metadata.name ∈ ns) := by
  unfold removePairFromNamed at hs'
  rcases (mem_updateSetsNamed st ns _ s').1 hs' with ⟨s, hs, heq⟩
  by_cases hn : s.metadata.name ∈ ns
  · rw [if_pos hn] at heq
    subst heq
    have hp' := List.mem_filter.1 hp
    refine ⟨⟨s, hs, rfl, hp'.1⟩, ?_⟩
    rintro ⟨rfl, _⟩
    have hne := hp'.2
    simp at hne
  · rw [if_neg hn] at heq
    subst heq
    exact ⟨⟨s, hs, rfl, hp⟩, by rintro ⟨_, hmem⟩; exact hn hmem⟩

/-- A freshly set pod record is found. -/
theorem findPodIn_setPod (pods : List (String × String × List String))
    (k : String) (v : String × List String) :
    findPodIn (setPod pods k v) k = some v := by
  simp [setPod, findPodIn]

/-- Shape of a successful UpdatePod: the pod record holds the new IP and a
member-set list covering the targets, and every member pair of the resulting
store is the added pair (inside the recorded sets) or a pre-existing pair of
the set of the same name. -/
theorem UpdatePod_ok_shape (st : Store) (u : UpdateNPMPod) (st' : Store)
    (h : UpdatePod st u = (st', none)) :
    ∃ R : List String,
      (∀ x ∈ u.targetSets, x ∈ R) ∧
      findPodIn st'.pods u.podKey = some (u.podIP, R) ∧
      (∀ s' ∈ st'.sets, ∀ p ∈ s'.members,
        (p = (u.podIP, u.podKey) ∧ s'.metadata.name ∈ R) ∨
        ∃ s ∈ st.sets, s.metadata.name = s'.metadata.name ∧ p ∈ s.members) := by
  by_cases hc : u.targetSets.all (validSetName st) = true
  · rcases hp : findPodIn st.pods u.podKey with _ | ⟨oldIP, oldSets⟩
    · simp only [UpdatePod, hc, if_true, hp] at h
      have hst : podAddPhase st u u.targetSets = st' := by
        simpa using congrArg Prod.fst h
      subst hst
      refine ⟨u.targetSets, fun x hx => hx, ?_, ?_⟩
      · exact findPodIn_setPod st.pods u.podKey (u.podIP, u.targetSets)
      · intro s' hs' p hpm
        exact addPair_members st u.targetSets (u.podIP, u.podKey) s' hs' p hpm
    · by_cases hip : oldIP = u.podIP
      · simp only [UpdatePod, hc, if_true, hp, hip, if_pos rfl] at h
        have hst : podAddPhase st u (unionNames oldSets u.targetSets) = st' := by
          simpa using congrArg Prod.fst h
        subst hst
        refine ⟨unionNames oldSets u.targetSets,
          fun x hx => (mem_unionNames x oldSets u.targetSets).2 (Or.inr hx), ?_, ?_⟩
        · exact findPodIn_setPod st.pods u.podKey _
        · intro s' hs' p hpm
          rcases addPair_members st u.targetSets (u.podIP, u.podKey) s' hs' p hpm with
            ⟨heq, hn⟩ | hold
          · exact Or.inl ⟨heq, (mem_unionNames _ _ _).2 (Or.inr hn)⟩
          · exact Or.inr hold
      · simp only [UpdatePod, hc, if_true, hp, if_neg hip] at h
        have hst :
            podAddPhase
              { removePairFromNamed st oldSets (oldIP, u.podKey) with
                  pending := markSetsDirty
                    (removePairFromNamed st oldSets (oldIP, u.podKey)).pending
                    oldSets }
              u u.targetSets = st' := by
          simpa using congrArg Prod.fst h
        subst hst
        refine ⟨u.targetSets, fun x hx => hx, ?_, ?_⟩
        · exact findPodIn_setPod _ u.podKey _
        · intro s' hs' p hpm
          rcases addPair_members _ u.targetSets (u.podIP, u.podKey) s' hs' p hpm with
            ⟨heq, hn⟩ | ⟨t, ht, hname, hm⟩
          · exact Or.inl ⟨heq, hn⟩
          · have ht2 : t ∈ (removePairFromNamed st oldSets (oldIP, u.podKey)).sets := ht
            rcases removePair_members st oldSets (oldIP, u.podKey) t ht2 p hm with
              ⟨⟨s, hsmem, hname2, hpm2⟩, _⟩
            exact Or.inr ⟨s, hsmem, by rw [hname2, hname], hpm2⟩
  · simp [UpdatePod, hc] at h

/-- When UpdatePod changes a pod's IP, the retraction phase removes every
membership of the prior IP, provided the prior IP's memberships were exactly
the ones recorded for the pod. -/
theorem UpdatePod_change_removes (st : Store) (u : UpdateNPMPod) (st' : Store)
    (ip : String) (R : List String)
    (hrec : findPodIn st.pods u.podKey = some (ip, R))
    (hne : ip ≠ u.podIP)
    (hmem : ∀ s ∈ st.sets, ∀ p ∈ s.members, p.1 = ip →
      p.2 = u.podKey ∧ s.metadata.name ∈ R)
    (h : UpdatePod st u = (st', none)) :
    ∀ s' ∈ st'.sets, ∀ p ∈ s'.members, p.1 ≠ ip := by
  by_cases hc : u.targetSets.all (validSetName st) = true
  · simp only [UpdatePod, hc, if_true, hrec] at h
    rw [if_neg hne] at h
    have hst :
        podAddPhase
          { removePairFromNamed st R (ip, u.podKey) with
              pending := markSetsDirty
                (removePairFromNamed st R (ip, u.podKey)).pending R }
          u u.targetSets = st' := by
      simpa using congrArg Prod.fst h
    subst hst
    intro s' hs' p hpm hip1
    rcases addPair_members _ u.targetSets (u.podIP, u.podKey) s' hs' p hpm with
      ⟨heq, _⟩ | ⟨t, ht, hname, hm⟩
    · rw [heq] at hip1
      exact hne hip1.symm
    · have ht2 : t ∈ (removePairFromNamed st R (ip, u.podKey)).sets := ht
      rcases removePair_members st R (ip, u.podKey) t ht2 p hm with
        ⟨⟨s, hsmem, hname2, hpm2⟩, hnot⟩
      rcases hmem s hsmem p hpm2 hip1 with ⟨hk, hnR⟩
      refine hnot ⟨?_, ?_⟩
      · cases p
        simp only at hip1 hk
        rw [hip1, hk]
      · rw [← hname2]
        exact hnR
  · simp [UpdatePod, hc] at h

/-- Claim C2: when UpdatePod is called with a new IP different from the
pod's prior IP, the prior IP is retracted from every set the pod previously
belonged to before the new IP is added; hence after two UpdatePod calls with
different IPs for the same pod key — the first call introducing an IP that
was not a member of any set beforehand — the first IP is a member of no set. -/
theorem UpdatePod_retract_before_add (st0 st1 st2 : Store)
    (u1 u2 : UpdateNPMPod)
    (hkey : u2.podKey = u1.podKey)
    (hip : u1.podIP ≠ u2.podIP)
    (hfresh : ∀ s ∈ st0.sets, ∀ p ∈ s.members, p.1 ≠ u1.podIP)
    (h1 : UpdatePod st0 u1 = (st1, none))
    (h2 : UpdatePod st1 u2 = (st2, none)) :
    ∀ s ∈ st2.sets, ∀ p ∈ s.members, p.1 ≠ u1.podIP := by
  rcases UpdatePod_ok_shape st0 u1 st1 h1 with ⟨R, hsub, hrec, hmems⟩
  have hmem1 : ∀ s ∈ st1.sets, ∀ p ∈ s.members, p.1 = u1.podIP →
      p.2 = u2.podKey ∧ s.metadata.name ∈ R := by
    intro s hs p hpm hp1
    rcases hmems s hs p hpm with ⟨heq, hn⟩ | ⟨t, ht, _, hm⟩
    · constructor
      · rw [heq, hkey]
      · exact hn
    · exact absurd hp1 (hfresh t ht p hm)
  have hrec2 : findPodIn st1.pods u2.podKey = some (u1.podIP, R) := by
    rw [hkey]
    exact hrec
  exact UpdatePod_change_removes st1 u2 st2 u1.podIP R hrec2 hip hmem1 h2

/-- A store with two empty Sets, s1 and s2. -/
def twoSetStore : Store :=
  { sets := [⟨⟨"s1", SetKind.set⟩, [], [], false⟩,
             ⟨⟨"s2", SetKind.set⟩, [], [], false⟩],
    pods := [], policies := [], pending := ⟨[], [], [], [], []⟩ }

/-- First pod update: pod-1 gets 10.0.0.5 in s1. -/
def podUpd1 : UpdateNPMPod := ⟨"pod-1", "10.0.0.5", ["s1"]⟩

/-- Second pod update: pod-1 moves to 10.0.0.6 in s2. -/
def podUpd2 : UpdateNPMPod := ⟨"pod-1", "10.0.0.6", ["s2"]⟩

/-- The store after the first pod update. -/
def podStore1 : Store := (UpdatePod twoSetStore podUpd1).1

/-- The store after both pod updates. -/
def podStore2 : Store := (UpdatePod podStore1 podUpd2).1

/-- Witness for C2: after pod-1 moves from 10.0.0.5 to 10.0.0.6, the IP
10.0.0.5 is a member of no set. -/
theorem UpdatePod_retract_before_add_witness :
    (∀ s ∈ twoSetStore.sets, ∀ p ∈ s.members, p.1 ≠ "10.0.0.5") ∧
    (∀ s ∈ podStore2.sets, ∀ p ∈ s.members, p.1 ≠ "10.0.0.5") :=
  ⟨by decide,
    UpdatePod_retract_before_add twoSetStore podStore1 podStore2 podUpd1 podUpd2
      (by decide) (by decide) (by decide) (by decide) (by decide)⟩

/-! ## Lemmas for the apply ordering and program safety -/

/-- A program run splits across an append. -/
theorem runProg_append (h : HostState) (a b : List Instr) :
    runProg h (a ++ b) = (runProg h a).bind (fun h2 => runProg h2 b) := by
  induction a generalizing h with
  | nil => simp [runProg]
  | cons i a ih =>
    rw [List.cons_append]
    simp only [runProg]
    cases step h i with
    | none => simp
    | some h2 => simp [ih]

/-- Running a block of set updates always succeeds, keeps the host rule-sets,
and makes the host sets exactly the original ones plus the updated names. -/
theorem runProg_applySet_map (h : HostState) (ns : List String)
    (g : String → List (String × String) × List String) :
    ∃ h2,
      runProg h (ns.map (fun n => Instr.applySet n (g n).1 (g n).2)) = some h2 ∧
      h2.hostPolicies = h.hostPolicies ∧
      (∀ x, x ∈ h2.hostSets ↔ x ∈ h.hostSets ∨ x ∈ ns) := by
  induction ns generalizing h with
  | nil => exact ⟨h, rfl, rfl, fun x => by simp⟩
  | cons n ns ih =>
    obtain ⟨h2, hrun, hpol, hmem⟩ :=
      ih { h with hostSets := insertName n h.hostSets }
    refine ⟨h2, ?_, hpol, ?_⟩
    · simp only [List.map_cons, runProg, step]
      exact hrun
    · intro x
      rw [hmem x]
      show x ∈ insertName n h.hostSets ∨ x ∈ ns ↔ _
      rw [mem_insertName_iff, List.mem_cons]
      tauto

/-- Running a block of rule-set updates whose references are all present
succeeds, keeps the host sets, and leaves only rule-sets that were submitted
in the block or that were present before and were not overwritten. -/
theorem runProg_applyPolicy_map (h : HostState)
    (ps : List (String × List String))
    (hsets : ∀ pr ∈ ps, ∀ r ∈ pr.2, r ∈ h.hostSets) :
    ∃ h2,
      runProg h (ps.map (fun pr => Instr.applyPolicy pr.1 pr.2)) = some h2 ∧
      h2.hostSets = h.hostSets ∧
      (∀ q ∈ h2.hostPolicies, q ∈ ps ∨
        (q ∈ h.hostPolicies ∧ ∀ pr ∈ ps, q.1 ≠ pr.1)) := by
  induction ps generalizing h with
  | nil => exact ⟨h, rfl, rfl, fun q hq => Or.inr ⟨hq, by simp⟩⟩
  | cons pr ps ih =>
    have hcond : ∀ r ∈ pr.2, r ∈ h.hostSets := hsets pr (by simp)
    obtain ⟨h2, hrun, hsets2, hchar⟩ :=
      ih { h with
            hostPolicies :=
              (pr.1, pr.2) :: h.hostPolicies.filter (fun q => q.1 ≠ pr.1) }
        (fun qr hqr r hr => hsets qr (List.mem_cons_of_mem pr hqr) r hr)
    refine ⟨h2, ?_, hsets2, ?_⟩
    · simp only [List.map_cons, runProg, step, if_pos hcond]
      exact hrun
    · intro q hq
      rcases hchar q hq with hq1 | ⟨hq2, hq3⟩
      · exact Or.inl (List.mem_cons_of_mem pr hq1)
      · rcases List.mem_cons.1 hq2 with heq | hq4
        · exact Or.inl (by rw [heq]; simp)
        · have h5 := List.mem_filter.1 hq4
          refine Or.inr ⟨h5.1, ?_⟩
          intro pr2 hpr2
          rcases List.mem_cons.1 hpr2 with rfl | hpr3
          · have h6 := h5.2
            simp at h6
            exact h6
          · exact hq3 pr2 hpr3

/-- Running a block of rule-set removals always succeeds, keeps the host
sets, and leaves no rule-set with a removed name. -/
theorem runProg_removePolicy_map (h : HostState) (ns : List String) :
    ∃ h2, runProg h (ns.map Instr.removePolicy) = some h2 ∧
      h2.hostSets = h.hostSets ∧
      (∀ q ∈ h2.hostPolicies, q ∈ h.hostPolicies ∧ ∀ n ∈ ns, q.1 ≠ n) := by
  induction ns generalizing h with
  | nil => exact ⟨h, rfl, rfl, fun q hq => ⟨hq, by simp⟩⟩
  | cons n ns ih =>
    obtain ⟨h2, hrun, hsets2, hchar⟩ :=
      ih { h with hostPolicies := h.hostPolicies.filter (fun q => q.1 ≠ n) }
    refine ⟨h2, ?_, hsets2, ?_⟩
    · simp only [List.map_cons, runProg, step]
      exact hrun
    · intro q hq
      obtain ⟨hq1, hq2⟩ := hchar q hq
      have h3 := List.mem_filter.1 hq1
      refine ⟨h3.1, ?_⟩
      intro m hm
      rcases List.mem_cons.1 hm with rfl | hm2
      · have h4 := h3.2
        simp at h4
        exact h4
      · exact hq2 m hm2

/-- Running a block of reference removals is the identity on the host. -/
theorem runProg_removeRef_map (h : HostState) (prs : List (String × String)) :
    runProg h (prs.map (fun pr => Instr.removeRef pr.1 pr.2)) = some h := by
  induction prs with
  | nil => rfl
  | cons pr prs ih =>
    simp only [List.map_cons, runProg, step]
    exact ih

/-- Running a block of set deletions succeeds when no host rule-set
references any deleted name. -/
theorem runProg_deleteSet_map (h : HostState) (ns : List String)
    (hok : ∀ n ∈ ns, ∀ q ∈ h.hostPolicies, n ∉ q.2) :
    (runProg h (ns.map Instr.deleteSet)).isSome = true := by
  induction ns generalizing h with
  | nil => rfl
  | cons n ns ih =>
    have hcond : ∀ q ∈ h.hostPolicies, n ∉ q.2 := hok n (by simp)
    simp only [List.map_cons, runProg, step, if_pos hcond]
    exact ih { h with hostSets := h.hostSets.filter (· ≠ n) }
      (fun m hm q hq => hok m (List.mem_cons_of_mem n hm) q hq)

/-- A positive set lookup exhibits a member of the store with that name. -/
theorem findSetIn_isSome (l : List IPSet) (n : String)
    (h : (findSetIn l n).isSome = true) : ∃ s ∈ l, s.metadata.name = n := by
  induction l with
  | nil => simp [findSetIn] at h
  | cons s l ih =>
    by_cases hn : s.metadata.name = n
    · exact ⟨s, by simp, hn⟩
    · simp only [findSetIn, if_neg hn] at h
      obtain ⟨t, ht, hname⟩ := ih h
      exact ⟨t, List.mem_cons_of_mem s ht, hname⟩

/-- A positive policy lookup is a store entry with that name. -/
theorem findPolicyIn_eq_some (l : List PolicyEntry) (n : String)
    (pe : PolicyEntry) (h : findPolicyIn l n = some pe) :
    pe ∈ l ∧ pe.policy.name = n := by
  induction l with
  | nil => simp [findPolicyIn] at h
  | cons q l ih =>
    by_cases hn : q.policy.name = n
    · simp only [findPolicyIn, if_pos hn] at h
      injection h with h
      subst h
      exact ⟨by simp, hn⟩
    · simp only [findPolicyIn, if_neg hn] at h
      obtain ⟨hm, hn2⟩ := ih h
      exact ⟨List.mem_cons_of_mem q hm, hn2⟩

/-- With unique policy names, lookup finds exactly the store entry. -/
theorem findPolicyIn_of_mem_nodup (l : List PolicyEntry) (pe : PolicyEntry)
    (hmem : pe ∈ l)
    (hnd : (l.map (fun q => q.policy.name)).Nodup) :
    findPolicyIn l pe.policy.name = some pe := by
  induction l with
  | nil => simp at hmem
  | cons q l ih =>
    have hnd2 : q.policy.name ∉ l.map (fun t => t.policy.name) ∧
        (l.map (fun t => t.policy.name)).Nodup := by
      rw [List.map_cons, List.nodup_cons] at hnd
      exact hnd
    rcases List.mem_cons.1 hmem with rfl | hmem2
    · simp [findPolicyIn]
    · by_cases hn : q.policy.name = pe.policy.name
      · exfalso
        have hin : pe.policy.name ∈ l.map (fun t => t.policy.name) :=
          List.mem_map.2 ⟨pe, hmem2, rfl⟩
        rw [← hn] at hin
        exact hnd2.1 hin
      · simp only [findPolicyIn, if_neg hn]
        exact ih hmem2 hnd2.2

/-- What membership in the emitted-policies list means. -/
theorem mem_emittedPolicies (st : Store) (pr : String × List String)
    (hpr : pr ∈ emittedPolicies st) :
    ∃ pe, pe ∈ st.policies ∧ pe.policy.name = pr.1 ∧
      pr.1 ∈ st.pending.updatedPolicies ∧
      validPolicyB st pe.policy = true ∧ pr.2 = rulesRefs pe.policy.rules := by
  obtain ⟨n, hn, hf⟩ := List.mem_filterMap.1 hpr
  rcases hfp : findPolicy st n with _ | pe
  · simp [hfp] at hf
  · simp only [hfp] at hf
    by_cases hv : validPolicyB st pe.policy = true
    · rw [if_pos hv] at hf
      injection hf with hf
      obtain ⟨hpe, hpename⟩ := findPolicyIn_eq_some st.policies n pe hfp
      subst hf
      exact ⟨pe, hpe, hpename, by simpa using hn, hv, rfl⟩
    · rw [if_neg hv] at hf
      simp at hf

/-- A store policy that is pending an update and passes validation is
emitted. -/
theorem emittedPolicies_complete (st : Store) (pe : PolicyEntry)
    (hmem : pe ∈ st.policies)
    (hnd : (st.policies.map (fun q => q.policy.name)).Nodup)
    (hup : pe.policy.name ∈ st.pending.updatedPolicies)
    (hv : validPolicyB st pe.policy = true) :
    (pe.policy.name, rulesRefs pe.policy.rules) ∈ emittedPolicies st := by
  have hfp : findPolicy st pe.policy.name = some pe :=
    findPolicyIn_of_mem_nodup st.policies pe hmem hnd
  refine List.mem_filterMap.2 ⟨pe.policy.name, hup, ?_⟩
  simp [hfp, hv]

/-- A list of instructions of one phase is internally ordered. -/
theorem phase_pairwise_const (l : List Instr) (k : Nat)
    (hl : ∀ i ∈ l, phase i = k) :
    l.Pairwise (fun a b => phase a ≤ phase b) := by
  induction l with
  | nil => exact List.Pairwise.nil
  | cons a l ih =>
    refine List.Pairwise.cons ?_ (ih fun i hi => hl i (List.mem_cons_of_mem a hi))
    intro b hb
    rw [hl a (by simp), hl b (List.mem_cons_of_mem a hb)]

/-- The batch built by the coordinator is ordered by phase. -/
theorem buildProgram_ordered (st : Store) :
    (buildProgram st).Pairwise (fun a b => phase a ≤ phase b) := by
  have hA : ∀ i ∈ (liveUpdatedSets st).map
      (fun n => Instr.applySet n (setArgsFor st n).1 (setArgsFor st n).2),
      phase i = 1 := by
    intro i hi
    obtain ⟨n, _, rfl⟩ := List.mem_map.1 hi
    rfl
  have hB : ∀ i ∈ (emittedPolicies st).map
      (fun pr => Instr.applyPolicy pr.1 pr.2), phase i = 2 := by
    intro i hi
    obtain ⟨pr, _, rfl⟩ := List.mem_map.1 hi
    rfl
  have hC : ∀ i ∈ st.pending.removedPolicies.map Instr.removePolicy,
      phase i = 3 := by
    intro i hi
    obtain ⟨n, _, rfl⟩ := List.mem_map.1 hi
    rfl
  have hD : ∀ i ∈ st.pending.refRemovals.map
      (fun pr => Instr.removeRef pr.1 pr.2), phase i = 4 := by
    intro i hi
    obtain ⟨pr, _, rfl⟩ := List.mem_map.1 hi
    rfl
  have hE : ∀ i ∈ st.pending.removedSets.map Instr.deleteSet,
      phase i = 5 := by
    intro i hi
    obtain ⟨n, _, rfl⟩ := List.mem_map.1 hi
    rfl
  unfold buildProgram
  refine List.pairwise_append.2 ⟨phase_pairwise_const _ 1 hA, ?_, ?_⟩
  · refine List.pairwise_append.2 ⟨phase_pairwise_const _ 2 hB, ?_, ?_⟩
    · refine List.pairwise_append.2 ⟨phase_pairwise_const _ 3 hC, ?_, ?_⟩
      · refine List.pairwise_append.2
          ⟨phase_pairwise_const _ 4 hD, phase_pairwise_const _ 5 hE, ?_⟩
        intro x hx y hy
        rw [hD x hx, hE y hy]
        omega
      · intro x hx y hy
        rcases List.mem_append.1 hy with hy | hy
        · rw [hC x hx, hD y hy]
          omega
        · rw [hC x hx, hE y hy]
          omega
    · intro x hx y hy
      rcases List.mem_append.1 hy with hy | hy
      · rw [hB x hx, hC y hy]
        omega
      · rcases List.mem_append.1 hy with hy | hy
        · rw [hB x hx, hD y hy]
          omega
        · rw [hB x hx, hE y hy]
          omega
  · intro x hx y hy
    rcases List.mem_append.1 hy with hy | hy
    · rw [hA x hx, hB y hy]
      omega
    · rcases List.mem_append.1 hy with hy | hy
      · rw [hA x hx, hC y hy]
        omega
      · rcases List.mem_append.1 hy with hy | hy
        · rw [hA x hx, hD y hy]
          omega
        · rw [hA x hx, hE y hy]
          omega

/-- A policy with unique names that is pending an update and fails validation
is held back. -/
theorem mem_heldBack_of (st : Store) (pe : PolicyEntry)
    (hmem : pe ∈ st.policies)
    (hnd : (st.policies.map (fun q => q.policy.name)).Nodup)
    (hup : pe.policy.name ∈ st.pending.updatedPolicies)
    (hv : validPolicyB st pe.policy = false) :
    pe.policy.name ∈ heldBack st := by
  have hfp : findPolicy st pe.policy.name = some pe :=
    findPolicyIn_of_mem_nodup st.policies pe hmem hnd
  refine List.mem_filter.2 ⟨hup, ?_⟩
  simp [hfp, hv]

/-- A policy with unique names that passes validation is never held back. -/
theorem not_mem_heldBack_of_valid (st : Store) (pe : PolicyEntry)
    (hmem : pe ∈ st.policies)
    (hnd : (st.policies.map (fun q => q.policy.name)).Nodup)
    (hv : validPolicyB st pe.policy = true) :
    pe.policy.name ∉ heldBack st := by
  intro hin
  have hfp : findPolicy st pe.policy.name = some pe :=
    findPolicyIn_of_mem_nodup st.policies pe hmem hnd
  have hpred := (List.mem_filter.1 hin).2
  rw [hfp] at hpred
  simp [hv] at hpred

/-- A valid policy never references a set that is absent from the store. -/
theorem valid_not_ref_absent (st : Store) (pe : PolicyEntry) (n : String)
    (hv : validPolicyB st pe.policy = true)
    (habs : (findSet st n).isNone = true) :
    n ∉ rulesRefs pe.policy.rules := by
  intro hmem
  have hvr := List.all_eq_true.1 (by simpa [validPolicyB] using hv) n hmem
  rw [Option.isNone_iff_eq_none] at habs
  rw [habs] at hvr
  simp at hvr

/-- On an invariant-satisfying store/host pair whose flush holds back no
applied policy, the batch built by the coordinator executes with every step's
demand satisfied. -/
theorem buildProgram_execOK (st : Store) (h : HostState) (hinv : INV st h)
    (hsafe : noStaleHeldBack st) :
    execOK h (buildProgram st) = true := by
  obtain ⟨hinv1, hinv2, hinv3, hinv4, hinv5, hinv6⟩ := hinv
  obtain ⟨h1, hrun1, hpol1, hmem1⟩ :=
    runProg_applySet_map h (liveUpdatedSets st) (setArgsFor st)
  have hsets2 : ∀ pr ∈ emittedPolicies st, ∀ r ∈ pr.2, r ∈ h1.hostSets := by
    intro pr hpr r hr
    obtain ⟨pe, hpe, _, hup, hv, hrefs⟩ := mem_emittedPolicies st pr hpr
    rw [hrefs] at hr
    have hvr : ∀ x ∈ rulesRefs pe.policy.rules, (findSet st x).isSome = true :=
      List.all_eq_true.1 (by simpa [validPolicyB] using hv)
    have hrs := hvr r hr
    obtain ⟨s, hsmem, hsname⟩ := findSetIn_isSome st.sets r hrs
    rcases hinv1 s hsmem with hh | hup2
    · rw [hsname] at hh
      exact (hmem1 r).2 (Or.inl hh)
    · rw [hsname] at hup2
      exact (hmem1 r).2 (Or.inr (List.mem_filter.2 ⟨hup2, hrs⟩))
  obtain ⟨h2, hrun2, hsets2eq, hchar2⟩ :=
    runProg_applyPolicy_map h1 (emittedPolicies st) hsets2
  obtain ⟨h3, hrun3, hsets3eq, hchar3⟩ :=
    runProg_removePolicy_map h2 st.pending.removedPolicies
  have hok5 : ∀ n ∈ st.pending.removedSets, ∀ q ∈ h3.hostPolicies, n ∉ q.2 := by
    intro n hn q hq hmem
    obtain ⟨hq2, hqrm⟩ := hchar3 q hq
    rcases hchar2 q hq2 with hqem | ⟨hqh, hqnames⟩
    · obtain ⟨pe, hpe, _, _, hv, hrefs⟩ := mem_emittedPolicies st q hqem
      rw [hrefs] at hmem
      exact valid_not_ref_absent st pe n hv (hinv4 n hn) hmem
    · rw [hpol1] at hqh
      rcases hinv2 q hqh with hqrm2 | ⟨pe, hpe, hname, happlied, hcase⟩
      · exact hqrm q.1 hqrm2 rfl
      · have hupdFalse : pe.policy.name ∈ st.pending.updatedPolicies → False := by
          intro hupd
          by_cases hv : validPolicyB st pe.policy = true
          · have hem := emittedPolicies_complete st pe hpe hinv3 hupd hv
            exact (hqnames (pe.policy.name, rulesRefs pe.policy.rules) hem)
              hname.symm
          · have hv2 : validPolicyB st pe.policy = false := by
              revert hv
              cases validPolicyB st pe.policy <;> simp
            have hhb := mem_heldBack_of st pe hpe hinv3 hupd hv2
            have hfalse := hsafe pe.policy.name hhb pe hpe rfl
            rw [happlied] at hfalse
            exact Bool.noConfusion hfalse
        rcases hcase with hrefseq | hupd
        · rw [← hrefseq] at hmem
          rcases hinv5 n hn pe hpe with hnot | hupd2
          · exact hnot hmem
          · exact hupdFalse hupd2
        · exact hupdFalse (by rw [hname]; exact hupd)
  unfold execOK buildProgram
  rw [runProg_append, hrun1, Option.some_bind, runProg_append, hrun2,
    Option.some_bind, runProg_append, hrun3, Option.some_bind,
    runProg_append, runProg_removeRef_map, Option.some_bind]
  exact runProg_deleteSet_map h3 st.pending.removedSets hok5

/-! ## Preservation of the store/host invariant -/

/-- A metadata-preserving map does not change which names resolve. -/
theorem findSetIn_map_isNone (l : List IPSet) (g : IPSet → IPSet)
    (hg : ∀ s, (g s).metadata = s.metadata) (n : String) :
    (findSetIn (l.map g) n).isNone = (findSetIn l n).isNone := by
  induction l with
  | nil => rfl
  | cons s l ih =>
    simp only [List.map_cons, findSetIn]
    by_cases hn : s.metadata.name = n
    · rw [if_pos (by rw [hg]; exact hn), if_pos hn]
      rfl
    · rw [if_neg (by rw [hg]; exact hn), if_neg hn]
      exact ih

/-- Removing every set of a name makes that name unresolvable. -/
theorem findSetIn_filter_self_isNone (l : List IPSet) (n : String) :
    (findSetIn (l.filter (fun t => t.metadata.name ≠ n)) n).isNone = true := by
  induction l with
  | nil => rfl
  | cons s l ih =>
    simp only [List.filter_cons]
    by_cases hn : s.metadata.name = n
    · rw [if_neg (by simp [hn])]
      exact ih
    · rw [if_pos (by simp [hn])]
      simp only [findSetIn, if_neg hn]
      exact ih

/-- Filtering sets keeps unresolvable names unresolvable. -/
theorem findSetIn_isNone_filter (l : List IPSet) (p : IPSet → Bool) (m : String)
    (h : (findSetIn l m).isNone = true) :
    (findSetIn (l.filter p) m).isNone = true := by
  induction l with
  | nil => rfl
  | cons s l ih =>
    by_cases hm : s.metadata.name = m
    · simp only [findSetIn, if_pos hm] at h
      simp at h
    · simp only [findSetIn, if_neg hm] at h
      simp only [List.filter_cons]
      by_cases hp : p s = true
      · rw [if_pos hp]
        simp only [findSetIn, if_neg hm]
        exact ih h
      · rw [if_neg hp]
        exact ih h

/-- A store member's name always resolves. -/
theorem findSetIn_isSome_of_mem (l : List IPSet) (s : IPSet) (hs : s ∈ l) :
    (findSetIn l s.metadata.name).isSome = true := by
  induction l with
  | nil => simp at hs
  | cons t l ih =>
    by_cases hn : t.metadata.name = s.metadata.name
    · simp [findSetIn, hn]
    · rcases List.mem_cons.1 hs with rfl | hs2
      · exact absurd rfl hn
      · simp only [findSetIn, if_neg hn]
        exact ih hs2

/-- A failed policy lookup means no store entry bears the name. -/
theorem findPolicyIn_none_not_mem (l : List PolicyEntry) (n : String)
    (h : findPolicyIn l n = none) : ∀ pe ∈ l, pe.policy.name ≠ n := by
  induction l with
  | nil => simp
  | cons q l ih =>
    by_cases hn : q.policy.name = n
    · simp [findPolicyIn, hn] at h
    · simp only [findPolicyIn, if_neg hn] at h
      intro pe hpe
      rcases List.mem_cons.1 hpe with rfl | hpe2
      · exact hn
      · exact ih h pe hpe2

/-- A zero reference count means no store policy references the name. -/
theorem refCount_zero_no_policy_refs (st : Store) (n : String)
    (h : refCount st n = 0) :
    ∀ pe ∈ st.policies, n ∉ rulesRefs pe.policy.rules := by
  intro pe hpe hmem
  have hfil : pe ∈ st.policies.filter (fun q => n ∈ rulesRefs q.policy.rules) :=
    List.mem_filter.2 ⟨hpe, by simp [hmem]⟩
  have hlen := List.length_pos_of_mem hfil
  unfold refCount at h
  omega

/-- A name-preserving policy map keeps the name list. -/
theorem map_policyNames_map (l : List PolicyEntry) (g : PolicyEntry → PolicyEntry)
    (hg : ∀ pe, (g pe).policy.name = pe.policy.name) :
    (l.map g).map (fun pe => pe.policy.name) =
      l.map (fun pe => pe.policy.name) := by
  induction l with
  | nil => rfl
  | cons pe l ih => simp [hg, ih]

/-- A successful run of a deletion block removes exactly the listed names and
keeps the host rule-sets. -/
theorem runProg_deleteSet_out (h : HostState) (ns : List String)
    (h2 : HostState)
    (hrun : runProg h (ns.map Instr.deleteSet) = some h2) :
    h2.hostPolicies = h.hostPolicies ∧
    (∀ x, x ∈ h2.hostSets ↔ x ∈ h.hostSets ∧ x ∉ ns) := by
  induction ns generalizing h with
  | nil =>
    simp only [List.map_nil, runProg] at hrun
    injection hrun with hrun
    subst hrun
    exact ⟨rfl, fun x => by simp⟩
  | cons n ns ih =>
    simp only [List.map_cons, runProg, step] at hrun
    by_cases hcond : ∀ q ∈ h.hostPolicies, n ∉ q.2
    · rw [if_pos hcond] at hrun
      obtain ⟨hp, hs⟩ := ih { h with hostSets := h.hostSets.filter (· ≠ n) } hrun
      refine ⟨hp, ?_⟩
      intro x
      rw [hs x]
      constructor
      · rintro ⟨hx1, hx2⟩
        have hx3 := List.mem_filter.1 hx1
        refine ⟨hx3.1, ?_⟩
        intro hm
        rcases List.mem_cons.1 hm with rfl | hm2
        · have hx4 := hx3.2
          simp at hx4
        · exact hx2 hm2
      · rintro ⟨hx1, hx2⟩
        refine ⟨List.mem_filter.2 ⟨hx1, ?_⟩,
          fun hm => hx2 (List.mem_cons_of_mem n hm)⟩
        simp only [decide_eq_true_eq]
        intro hxn
        exact hx2 (by rw [hxn]; exact List.mem_cons_self n ns)
    · rw [if_neg hcond] at hrun
      exact absurd hrun (by simp)

/-- Mutating members or references of named sets (metadata untouched), with
any pod-tracker update, any reference-removal staging and a dirty mark on the
named sets, preserves the invariant. -/
theorem INV_memberOpResult (st : Store) (h : HostState) (hinv : INV st h)
    (ns : List String) (f : IPSet → IPSet)
    (hf : ∀ s, (f s).metadata = s.metadata)
    (pods2 : List (String × String × List String))
    (rr2 : List (String × String)) :
    INV { sets := st.sets.map (fun s => if s.metadata.name ∈ ns then f s else s),
          pods := pods2,
          policies := st.policies,
          pending :=
            { markSetsDirty st.pending ns with refRemovals := rr2 } } h := by
  obtain ⟨h1, h2, h3, h4, h5, h6⟩ := hinv
  have hg : ∀ s : IPSet,
      (if s.metadata.name ∈ ns then f s else s).metadata = s.metadata := by
    intro s
    by_cases hn : s.metadata.name ∈ ns
    · rw [if_pos hn]
      exact hf s
    · rw [if_neg hn]
  refine ⟨?_, h2, h3, ?_, h5, h6⟩
  · intro s' hs'
    obtain ⟨s, hs, rfl⟩ := List.mem_map.1 hs'
    rw [hg s]
    rcases h1 s hs with hh | hu
    · exact Or.inl hh
    · exact Or.inr ((mem_unionNames _ _ _).2 (Or.inl hu))
  · intro n hn
    show (findSetIn
      (st.sets.map (fun s => if s.metadata.name ∈ ns then f s else s)) n).isNone
        = true
    rw [findSetIn_map_isNone st.sets _ hg n]
    exact h4 n hn

/-- AddToSet preserves the invariant. -/
theorem INV_AddToSet (st : Store) (h : HostState) (hinv : INV st h)
    (metas : List IPSetMetadata) (ip podKey : String) :
    INV (AddToSet st metas ip podKey).1 h := by
  by_cases hc : (metas.map (fun m => m.name)).all (validSetName st) = true
  · simp only [AddToSet, hc, if_true]
    exact INV_memberOpResult st h hinv (metas.map (fun m => m.name))
      (fun s => { s with members := insertPair (ip, podKey) s.members })
      (fun s => rfl) _ _
  · simp only [AddToSet, hc, if_false]
    exact hinv

/-- RemoveFromSet preserves the invariant. -/
theorem INV_RemoveFromSet (st : Store) (h : HostState) (hinv : INV st h)
    (metas : List IPSetMetadata) (ip podKey : String) :
    INV (RemoveFromSet st metas ip podKey).1 h := by
  by_cases hc : (metas.map (fun m => m.name)).all (validSetName st) = true
  · simp only [RemoveFromSet, hc, if_true]
    exact INV_memberOpResult st h hinv (metas.map (fun m => m.name))
      (fun s => { s with members := s.members.filter (· ≠ (ip, podKey)) })
      (fun s => rfl) _ _
  · simp only [RemoveFromSet, hc, if_false]
    exact hinv

/-- AddToList preserves the invariant. -/
theorem INV_AddToList (st : Store) (h : HostState) (hinv : INV st h)
    (listMeta : IPSetMetadata) (setMetas : List IPSetMetadata) :
    INV (AddToList st listMeta setMetas).1 h := by
  by_cases hc :
      addToListOK st listMeta.name (setMetas.map (fun m => m.name)) = true
  · simp only [AddToList, hc, if_true]
    exact INV_memberOpResult st h hinv [listMeta.name]
      (fun s => { s with refs := unionNames s.refs (setMetas.map (fun m => m.name)) })
      (fun s => rfl) _ _
  · simp only [AddToList, hc, if_false]
    exact hinv

/-- RemoveFromList preserves the invariant. -/
theorem INV_RemoveFromList (st : Store) (h : HostState) (hinv : INV st h)
    (listMeta : IPSetMetadata) (setMetas : List IPSetMetadata) :
    INV (RemoveFromList st listMeta setMetas).1 h := by
  by_cases hc :
      removeFromListOK st listMeta.name (setMetas.map (fun m => m.name)) = true
  · simp only [RemoveFromList, hc, if_true]
    exact INV_memberOpResult st h hinv [listMeta.name]
      (fun s => { s with refs := s.refs.filter (· ∉ setMetas.map (fun m => m.name)) })
      (fun s => rfl) _ _
  · simp only [RemoveFromList, hc, if_false]
    exact hinv

/-- UpdatePod preserves the invariant. -/
theorem INV_UpdatePod (st : Store) (h : HostState) (hinv : INV st h)
    (u : UpdateNPMPod) : INV (UpdatePod st u).1 h := by
  by_cases hc : u.targetSets.all (validSetName st) = true
  · rcases hp : findPodIn st.pods u.podKey with _ | ⟨oldIP, oldSets⟩
    · simp only [UpdatePod, hc, if_true, hp]
      exact INV_memberOpResult st h hinv u.targetSets
        (fun s => { s with members := insertPair (u.podIP, u.podKey) s.members })
        (fun s => rfl) _ _
    · by_cases hip : oldIP = u.podIP
      · simp only [UpdatePod, hc, if_true, hp, hip, if_pos rfl]
        exact INV_memberOpResult st h hinv u.targetSets
          (fun s => { s with members := insertPair (u.podIP, u.podKey) s.members })
          (fun s => rfl) _ _
      · simp only [UpdatePod, hc, if_true, hp, if_neg hip]
        exact INV_memberOpResult _ h
          (INV_memberOpResult st h hinv oldSets
            (fun s => { s with members := s.members.filter (· ≠ (oldIP, u.podKey)) })
            (fun s => rfl) st.pods st.pending.refRemovals)
          u.targetSets
          (fun s => { s with members := insertPair (u.podIP, u.podKey) s.members })
          (fun s => rfl) _ _
  · simp only [UpdatePod, hc, if_false]
    exact hinv

/-- CreateIPSet preserves the invariant. -/
theorem INV_CreateIPSet (st : Store) (h : HostState) (hinv : INV st h)
    (meta : IPSetMetadata) : INV (CreateIPSet st meta).1 h := by
  obtain ⟨h1, h2, h3, h4, h5, h6⟩ := hinv
  rcases hfs : findSet st meta.name with _ | s
  · by_cases hr : meta.name ∈ st.pending.removedSets
    · have hres : (CreateIPSet st meta).1 =
          { st with
              sets := ⟨meta, [], [], true⟩ :: st.sets,
              pending :=
                { markSetsDirty st.pending [meta.name] with
                    removedSets :=
                      st.pending.removedSets.filter (· ≠ meta.name) } } := by
        simp [CreateIPSet, hfs, hr]
      rw [hres]
      refine ⟨?_, h2, h3, ?_, ?_, h6⟩
      · intro s' hs'
        rcases List.mem_cons.1 hs' with rfl | hs2
        · exact Or.inr ((mem_unionNames _ _ _).2 (Or.inr (by simp)))
        · rcases h1 s' hs2 with hh | hu
          · exact Or.inl hh
          · exact Or.inr ((mem_unionNames _ _ _).2 (Or.inl hu))
      · intro n hn
        have hn2 := List.mem_filter.1 hn
        have hne : n ≠ meta.name := by
          have h7 := hn2.2
          simpa using h7
        show (findSetIn (⟨meta, [], [], true⟩ :: st.sets) n).isNone = true
        simp only [findSetIn]
        rw [if_neg (by simpa using fun he => hne he.symm)]
        exact h4 n hn2.1
      · intro n hn pe hpe
        exact h5 n (List.mem_filter.1 hn).1 pe hpe
    · have hres : (CreateIPSet st meta).1 =
          { st with
              sets := ⟨meta, [], [], false⟩ :: st.sets,
              pending := markSetsDirty st.pending [meta.name] } := by
        simp [CreateIPSet, hfs, hr]
      rw [hres]
      refine ⟨?_, h2, h3, ?_, h5, h6⟩
      · intro s' hs'
        rcases List.mem_cons.1 hs' with rfl | hs2
        · exact Or.inr ((mem_unionNames _ _ _).2 (Or.inr (by simp)))
        · rcases h1 s' hs2 with hh | hu
          · exact Or.inl hh
          · exact Or.inr ((mem_unionNames _ _ _).2 (Or.inl hu))
      · intro n hn
        have hne : n ≠ meta.name := fun he => hr (he ▸ hn)
        show (findSetIn (⟨meta, [], [], false⟩ :: st.sets) n).isNone = true
        simp only [findSetIn]
        rw [if_neg (by simpa using fun he => hne he.symm)]
        exact h4 n hn
  · have hres : (CreateIPSet st meta).1 = st := by
      simp [CreateIPSet, hfs]
    rw [hres]
    exact ⟨h1, h2, h3, h4, h5, h6⟩

/-- DeleteIPSet preserves the invariant. -/
theorem INV_DeleteIPSet (st : Store) (h : HostState) (hinv : INV st h)
    (meta : IPSetMetadata) : INV (DeleteIPSet st meta).1 h := by
  obtain ⟨h1, h2, h3, h4, h5, h6⟩ := hinv
  rcases hfs : findSet st meta.name with _ | s
  · have hres : (DeleteIPSet st meta).1 = st := by
      simp [DeleteIPSet, hfs]
    rw [hres]
    exact ⟨h1, h2, h3, h4, h5, h6⟩
  · by_cases hrc : refCount st meta.name ≠ 0
    · have hres : (DeleteIPSet st meta).1 = st := by
        simp [DeleteIPSet, hfs, hrc]
      rw [hres]
      exact ⟨h1, h2, h3, h4, h5, h6⟩
    · have hrc0 : refCount st meta.name = 0 := not_not.1 hrc
      have hres : (DeleteIPSet st meta).1 =
          { st with
              sets := st.sets.filter (fun t => t.metadata.name ≠ meta.name),
              pending :=
                { st.pending with
                    updatedSets :=
                      st.pending.updatedSets.filter (· ≠ meta.name),
                    removedSets :=
                      if s.applied then
                        insertName meta.name st.pending.removedSets
                      else st.pending.removedSets } } := by
        simp [DeleteIPSet, hfs, hrc]
      rw [hres]
      refine ⟨?_, h2, h3, ?_, ?_, h6⟩
      · intro s' hs'
        have hs2 := List.mem_filter.1 hs'
        have hne : s'.metadata.name ≠ meta.name := by
          have := hs2.2
          simpa using this
        rcases h1 s' hs2.1 with hh | hu
        · exact Or.inl hh
        · exact Or.inr (List.mem_filter.2 ⟨hu, by simpa using hne⟩)
      · intro n hn
        have hn2 : n = meta.name ∨ n ∈ st.pending.removedSets := by
          by_cases ha : s.applied = true
          · rw [if_pos ha] at hn
            exact (mem_insertName_iff _ _ _).1 hn
          · rw [if_neg ha] at hn
            exact Or.inr hn
        show (findSetIn
          (st.sets.filter (fun t => t.metadata.name ≠ meta.name)) n).isNone
            = true
        rcases hn2 with rfl | hold
        · exact findSetIn_filter_self_isNone st.sets meta.name
        · exact findSetIn_isNone_filter st.sets _ n (h4 n hold)
      · intro n hn pe hpe
        have hn2 : n = meta.name ∨ n ∈ st.pending.removedSets := by
          by_cases ha : s.applied = true
          · rw [if_pos ha] at hn
            exact (mem_insertName_iff _ _ _).1 hn
          · rw [if_neg ha] at hn
            exact Or.inr hn
        rcases hn2 with rfl | hold
        · exact Or.inl (refCount_zero_no_policy_refs st meta.name hrc0 pe hpe)
        · exact h5 n hold pe hpe

/-- AddPolicy preserves the invariant. -/
theorem INV_AddPolicy (st : Store) (h : HostState) (hinv : INV st h)
    (pol : NPMNetworkPolicy) : INV (AddPolicy st pol).1 h := by
  obtain ⟨h1, h2, h3, h4, h5, h6⟩ := hinv
  rcases hf : findPolicy st pol.name with _ | pe0
  · have hnotin : ∀ q ∈ st.policies, q.policy.name ≠ pol.name :=
      findPolicyIn_none_not_mem st.policies pol.name hf
    have hres : (AddPolicy st pol).1 =
        { st with
            policies :=
              ⟨pol, decide (pol.name ∈ st.pending.removedPolicies)⟩ ::
                st.policies,
            pending :=
              { markPolicyDirty st.pending pol.name with
                  removedPolicies :=
                    st.pending.removedPolicies.filter (· ≠ pol.name) } } := by
      simp [AddPolicy, hf]
    rw [hres]
    refine ⟨h1, ?_, ?_, h4, ?_, ?_⟩
    · intro q hq
      rcases h2 q hq with hrm | ⟨pe2, hpe2, hname2, happ2, hcase2⟩
      · by_cases heq : q.1 = pol.name
        · refine Or.inr
            ⟨⟨pol, decide (pol.name ∈ st.pending.removedPolicies)⟩,
              List.mem_cons_self _ _, heq.symm, ?_, Or.inr ?_⟩
          · exact decide_eq_true (heq ▸ hrm)
          · exact (mem_insertName_iff _ _ _).2 (Or.inl heq)
        · exact Or.inl (List.mem_filter.2 ⟨hrm, by simpa using heq⟩)
      · refine Or.inr ⟨pe2, List.mem_cons_of_mem _ hpe2, hname2, happ2, ?_⟩
        rcases hcase2 with hre | hup
        · exact Or.inl hre
        · exact Or.inr ((mem_insertName_iff _ _ _).2 (Or.inr hup))
    · simp only [List.map_cons]
      refine List.nodup_cons.2 ⟨?_, h3⟩
      intro hin
      obtain ⟨q, hq, hqname⟩ := List.mem_map.1 hin
      exact hnotin q hq hqname
    · intro n hn pe2 hpe2
      rcases List.mem_cons.1 hpe2 with rfl | hpe3
      · exact Or.inr ((mem_insertName_iff _ _ _).2 (Or.inl rfl))
      · rcases h5 n hn pe2 hpe3 with ha | hb
        · exact Or.inl ha
        · exact Or.inr ((mem_insertName_iff _ _ _).2 (Or.inr hb))
    · intro pe2 hpe2
      rcases List.mem_cons.1 hpe2 with rfl | hpe3
      · intro hin
        have h7 := (List.mem_filter.1 hin).2
        simp at h7
      · intro hin
        exact h6 pe2 hpe3 (List.mem_filter.1 hin).1
  · have hres : (AddPolicy st pol).1 = st := by
      simp [AddPolicy, hf]
    rw [hres]
    exact ⟨h1, h2, h3, h4, h5, h6⟩

/-- UpdatePolicy preserves the invariant. -/
theorem INV_UpdatePolicy (st : Store) (h : HostState) (hinv : INV st h)
    (pol : NPMNetworkPolicy) : INV (UpdatePolicy st pol).1 h := by
  obtain ⟨h1, h2, h3, h4, h5, h6⟩ := hinv
  rcases hf : findPolicy st pol.name with _ | pe0
  · have hres : (UpdatePolicy st pol).1 = st := by
      simp [UpdatePolicy, hf]
    rw [hres]
    exact ⟨h1, h2, h3, h4, h5, h6⟩
  · have hres : (UpdatePolicy st pol).1 =
        { st with
            policies := st.policies.map (fun pe =>
              if pe.policy.name = pol.name then { pe with policy := pol } else pe),
            pending := markPolicyDirty st.pending pol.name } := by
      simp [UpdatePolicy, hf]
    rw [hres]
    have hgname : ∀ pe : PolicyEntry,
        ((if pe.policy.name = pol.name then { pe with policy := pol }
          else pe) : PolicyEntry).policy.name = pe.policy.name := by
      intro pe
      by_cases hn : pe.policy.name = pol.name
      · rw [if_pos hn]
        exact hn.symm
      · rw [if_neg hn]
    have happres : ∀ pe : PolicyEntry,
        ((if pe.policy.name = pol.name then { pe with policy := pol }
          else pe) : PolicyEntry).applied = pe.applied := by
      intro pe
      by_cases hn : pe.policy.name = pol.name
      · rw [if_pos hn]
      · rw [if_neg hn]
    refine ⟨h1, ?_, ?_, h4, ?_, ?_⟩
    · intro q hq
      rcases h2 q hq with hrm | ⟨pe2, hpe2, hname2, happ2, hcase2⟩
      · exact Or.inl hrm
      · refine Or.inr
          ⟨(if pe2.policy.name = pol.name then { pe2 with policy := pol }
            else pe2),
            List.mem_map_of_mem _ hpe2, by rw [hgname]; exact hname2,
            by rw [happres]; exact happ2, ?_⟩
        by_cases hn2 : pe2.policy.name = pol.name
        · refine Or.inr ((mem_insertName_iff _ _ _).2 (Or.inl ?_))
          rw [← hname2, hn2]
        · rw [if_neg hn2]
          rcases hcase2 with hre | hup
          · exact Or.inl hre
          · exact Or.inr ((mem_insertName_iff _ _ _).2 (Or.inr hup))
    · rw [map_policyNames_map st.policies _ hgname]
      exact h3
    · intro n hn pe2' hpe2'
      obtain ⟨pe2, hpe2, rfl⟩ := List.mem_map.1 hpe2'
      by_cases hn2 : pe2.policy.name = pol.name
      · refine Or.inr ((mem_insertName_iff _ _ _).2 (Or.inl ?_))
        rw [hgname, hn2]
      · rw [if_neg hn2]
        rcases h5 n hn pe2 hpe2 with ha | hb
        · exact Or.inl ha
        · exact Or.inr ((mem_insertName_iff _ _ _).2 (Or.inr hb))
    · intro pe2' hpe2'
      obtain ⟨pe2, hpe2, rfl⟩ := List.mem_map.1 hpe2'
      rw [hgname]
      exact h6 pe2 hpe2

/-- RemovePolicy preserves the invariant. -/
theorem INV_RemovePolicy (st : Store) (h : HostState) (hinv : INV st h)
    (n : String) : INV (RemovePolicy st n).1 h := by
  obtain ⟨h1, h2, h3, h4, h5, h6⟩ := hinv
  rcases hf : findPolicy st n with _ | pe0
  · have hres : (RemovePolicy st n).1 = st := by
      simp [RemovePolicy, hf]
    rw [hres]
    exact ⟨h1, h2, h3, h4, h5, h6⟩
  · obtain ⟨hpe0mem, hpe0name⟩ := findPolicyIn_eq_some st.policies n pe0 hf
    have hres : (RemovePolicy st n).1 =
        { st with
            policies := st.policies.filter (fun q => q.policy.name ≠ n),
            pending :=
              { st.pending with
                  updatedPolicies :=
                    st.pending.updatedPolicies.filter (· ≠ n),
                  removedPolicies :=
                    if pe0.applied then
                      insertName n st.pending.removedPolicies
                    else st.pending.removedPolicies } } := by
      simp [RemovePolicy, hf]
    rw [hres]
    refine ⟨h1, ?_, ?_, h4, ?_, ?_⟩
    · intro q hq
      rcases h2 q hq with hrm | ⟨pe2, hpe2, hname2, happ2, hcase2⟩
      · refine Or.inl ?_
        by_cases ha : pe0.applied = true
        · rw [if_pos ha]
          exact (mem_insertName_iff _ _ _).2 (Or.inr hrm)
        · rw [if_neg ha]
          exact hrm
      · by_cases heq : pe2.policy.name = n
        · have hf2 : findPolicyIn st.policies n = some pe0 := hf
          have hpe2eq : pe2 = pe0 := by
            have hfind := findPolicyIn_of_mem_nodup st.policies pe2 hpe2 h3
            rw [heq, hf2] at hfind
            injection hfind with h7
            exact h7.symm
          have happ0 : pe0.applied = true := by
            rw [← hpe2eq]
            exact happ2
          refine Or.inl ?_
          rw [if_pos happ0]
          refine (mem_insertName_iff _ _ _).2 (Or.inl ?_)
          rw [← hname2]
          exact heq
        · refine Or.inr
            ⟨pe2, List.mem_filter.2 ⟨hpe2, by simpa using heq⟩, hname2, happ2, ?_⟩
          rcases hcase2 with hre | hup
          · exact Or.inl hre
          · refine Or.inr (List.mem_filter.2 ⟨hup, ?_⟩)
            simp only [decide_eq_true_eq]
            rw [← hname2]
            exact heq
    · exact List.Nodup.sublist
        (List.Sublist.map _ (List.filter_sublist st.policies)) h3
    · intro m hm pe2 hpe2'
      have hpe2 := List.mem_filter.1 hpe2'
      have hne : pe2.policy.name ≠ n := by
        have h7 := hpe2.2
        simpa using h7
      rcases h5 m hm pe2 hpe2.1 with ha | hb
      · exact Or.inl ha
      · refine Or.inr (List.mem_filter.2 ⟨hb, ?_⟩)
        simpa using hne
    · intro pe2 hpe2'
      have hpe2 := List.mem_filter.1 hpe2'
      have hne : pe2.policy.name ≠ n := by
        have h7 := hpe2.2
        simpa using h7
      by_cases ha : pe0.applied = true
      · rw [if_pos ha]
        intro hin
        rcases (mem_insertName_iff _ _ _).1 hin with heq | hold
        · exact hne heq
        · exact h6 pe2 hpe2.1 hold
      · rw [if_neg ha]
        exact h6 pe2 hpe2.1

/-- A successful apply preserves the invariant: the cleared store matches the
host state produced by running the flushed batch. -/
theorem INV_applySuccess (st : Store) (h hF : HostState) (hinv : INV st h)
    (hrun : runProg h (buildProgram st) = some hF) :
    INV (applySuccessStore st) hF := by
  obtain ⟨h1, h2, h3, h4, h5, h6⟩ := hinv
  obtain ⟨hA1, hrunA, hApol, hAmem⟩ :=
    runProg_applySet_map h (liveUpdatedSets st) (setArgsFor st)
  unfold buildProgram at hrun
  rw [runProg_append, hrunA, Option.some_bind] at hrun
  have hsets2 : ∀ pr ∈ emittedPolicies st, ∀ r ∈ pr.2, r ∈ hA1.hostSets := by
    intro pr hpr r hr
    obtain ⟨pe, hpe, _, hup, hv, hrefs⟩ := mem_emittedPolicies st pr hpr
    rw [hrefs] at hr
    have hvr : ∀ x ∈ rulesRefs pe.policy.rules, (findSet st x).isSome = true :=
      List.all_eq_true.1 (by simpa [validPolicyB] using hv)
    have hrs := hvr r hr
    obtain ⟨s, hsmem, hsname⟩ := findSetIn_isSome st.sets r hrs
    rcases h1 s hsmem with hh | hup2
    · rw [hsname] at hh
      exact (hAmem r).2 (Or.inl hh)
    · rw [hsname] at hup2
      exact (hAmem r).2 (Or.inr (List.mem_filter.2 ⟨hup2, hrs⟩))
  obtain ⟨hB2, hrunB, hBsets, hBchar⟩ :=
    runProg_applyPolicy_map hA1 (emittedPolicies st) hsets2
  rw [runProg_append, hrunB, Option.some_bind] at hrun
  obtain ⟨hC3, hrunC, hCsets, hCchar⟩ :=
    runProg_removePolicy_map hB2 st.pending.removedPolicies
  rw [runProg_append, hrunC, Option.some_bind] at hrun
  rw [runProg_append, runProg_removeRef_map, Option.some_bind] at hrun
  obtain ⟨hDpol, hDsets⟩ :=
    runProg_deleteSet_out hC3 st.pending.removedSets hF hrun
  have hgPname : ∀ pe : PolicyEntry,
      ((if pe.policy.name ∈ st.pending.updatedPolicies ∧
          pe.policy.name ∉ heldBack st then
        { pe with applied := true } else pe) : PolicyEntry).policy.name
        = pe.policy.name := by
    intro pe
    by_cases hcnd : pe.policy.name ∈ st.pending.updatedPolicies ∧
        pe.policy.name ∉ heldBack st
    · rw [if_pos hcnd]
    · rw [if_neg hcnd]
  have hgPpol : ∀ pe : PolicyEntry,
      ((if pe.policy.name ∈ st.pending.updatedPolicies ∧
          pe.policy.name ∉ heldBack st then
        { pe with applied := true } else pe) : PolicyEntry).policy
        = pe.policy := by
    intro pe
    by_cases hcnd : pe.policy.name ∈ st.pending.updatedPolicies ∧
        pe.policy.name ∉ heldBack st
    · rw [if_pos hcnd]
    · rw [if_neg hcnd]
  have hgPapp : ∀ pe : PolicyEntry, pe.applied = true →
      ((if pe.policy.name ∈ st.pending.updatedPolicies ∧
          pe.policy.name ∉ heldBack st then
        { pe with applied := true } else pe) : PolicyEntry).applied = true := by
    intro pe happ
    by_cases hcnd : pe.policy.name ∈ st.pending.updatedPolicies ∧
        pe.policy.name ∉ heldBack st
    · rw [if_pos hcnd]
    · rw [if_neg hcnd]
      exact happ
  unfold applySuccessStore
  refine ⟨?_, ?_, ?_, ?_, ?_, ?_⟩
  · intro s' hs'
    obtain ⟨s, hs, rfl⟩ := List.mem_map.1 hs'
    refine Or.inl ?_
    have hname : (if s.metadata.name ∈ st.pending.updatedSets then
        { s with applied := true } else s).metadata.name = s.metadata.name := by
      by_cases hn : s.metadata.name ∈ st.pending.updatedSets
      · rw [if_pos hn]
      · rw [if_neg hn]
    rw [hname]
    refine (hDsets s.metadata.name).2 ⟨?_, ?_⟩
    · rw [hCsets, hBsets]
      rcases h1 s hs with hh | hu
      · exact (hAmem _).2 (Or.inl hh)
      · exact (hAmem _).2
          (Or.inr (List.mem_filter.2 ⟨hu, findSetIn_isSome_of_mem st.sets s hs⟩))
    · intro hrs
      have habs : findSetIn st.sets s.metadata.name = none := by
        have h7 := h4 s.metadata.name hrs
        rwa [Option.isNone_iff_eq_none] at h7
      have hsome := findSetIn_isSome_of_mem st.sets s hs
      rw [habs] at hsome
      simp at hsome
  · intro q hq
    rw [hDpol] at hq
    obtain ⟨hqB, hqrm⟩ := hCchar q hq
    rcases hBchar q hqB with hqem | ⟨hqh, hqnames⟩
    · obtain ⟨pe, hpe, hpename, hup, hv, hrefs⟩ := mem_emittedPolicies st q hqem
      have hcond : pe.policy.name ∈ st.pending.updatedPolicies ∧
          pe.policy.name ∉ heldBack st :=
        ⟨by rw [hpename]; exact hup, not_mem_heldBack_of_valid st pe hpe h3 hv⟩
      refine Or.inr
        ⟨if pe.policy.name ∈ st.pending.updatedPolicies ∧
            pe.policy.name ∉ heldBack st then
          { pe with applied := true } else pe,
          List.mem_map.2 ⟨pe, hpe, rfl⟩, ?_, ?_, ?_⟩
      · rw [if_pos hcond]
        exact hpename
      · rw [if_pos hcond]
      · rw [if_pos hcond]
        exact Or.inl hrefs.symm
    · rw [hApol] at hqh
      rcases h2 q hqh with hrm | ⟨pe, hpe, hname, happ, hcase⟩
      · exact absurd rfl (hqrm q.1 hrm)
      · refine Or.inr
          ⟨if pe.policy.name ∈ st.pending.updatedPolicies ∧
              pe.policy.name ∉ heldBack st then
            { pe with applied := true } else pe,
            List.mem_map.2 ⟨pe, hpe, rfl⟩,
            by rw [hgPname]; exact hname, hgPapp pe happ, ?_⟩
        rcases hcase with hre | hup
        · refine Or.inl ?_
          rw [hgPpol]
          exact hre
        · by_cases hv : validPolicyB st pe.policy = true
          · exfalso
            have hem := emittedPolicies_complete st pe hpe h3
              (by rw [hname]; exact hup) hv
            exact (hqnames _ hem) hname.symm
          · have hv2 : validPolicyB st pe.policy = false := by
              revert hv
              cases validPolicyB st pe.policy <;> simp
            refine Or.inr ?_
            have hhb := mem_heldBack_of st pe hpe h3
              (by rw [hname]; exact hup) hv2
            rw [← hname]
            exact hhb
  · rw [map_policyNames_map st.policies _ hgPname]
    exact h3
  · intro n hn
    simp at hn
  · intro n hn
    simp at hn
  · intro pe hpe
    simp

/-- Every staging operation preserves the invariant. -/
theorem INV_stage (st : Store) (h : HostState) (hinv : INV st h)
    (o : StageOp) : INV (stage st o).1 h := by
  cases o with
  | createIPSet meta => exact INV_CreateIPSet st h hinv meta
  | deleteIPSet meta => exact INV_DeleteIPSet st h hinv meta
  | addToSet metas ip podKey => exact INV_AddToSet st h hinv metas ip podKey
  | removeFromSet metas ip podKey =>
    exact INV_RemoveFromSet st h hinv metas ip podKey
  | addToList listMeta setMetas => exact INV_AddToList st h hinv listMeta setMetas
  | removeFromList listMeta setMetas =>
    exact INV_RemoveFromList st h hinv listMeta setMetas
  | updatePod u => exact INV_UpdatePod st h hinv u
  | addPolicy pol => exact INV_AddPolicy st h hinv pol
  | updatePolicy pol => exact INV_UpdatePolicy st h hinv pol
  | removePolicy n => exact INV_RemovePolicy st h hinv n

/-- Every apply preserves the invariant. -/
theorem INV_applyStep (st : Store) (h : HostState) (hinv : INV st h) :
    INV (applyStep st h).1 (applyStep st h).2 := by
  by_cases hpe : pendingIsEmpty st.pending = true
  · have he : applyStep st h = (st, h) := by
      simp [applyStep, ApplyDataPlane, hpe]
    rw [he]
    exact hinv
  · rcases hrun : runProg h (buildProgram st) with _ | h2
    · have hko : execOK h (buildProgram st) = false := by
        simp [execOK, hrun]
      have he : applyStep st h = (st, h) := by
        simp [applyStep, ApplyDataPlane, hpe, hrun, hko]
      rw [he]
      exact hinv
    · have hok : execOK h (buildProgram st) = true := by
        simp [execOK, hrun]
      have he : applyStep st h = (applySuccessStore st, h2) := by
        simp [applyStep, ApplyDataPlane, hpe, hrun, hok]
      rw [he]
      exact INV_applySuccess st h h2 hinv hrun

/-- The fresh engine and host satisfy the invariant. -/
theorem INV_empty : INV emptyStore emptyHost := by decide

/-- Every engine/host step preserves the invariant. -/
theorem INV_dpStep (p : Store × HostState) (hinv : INV p.1 p.2) (c : DPCmd) :
    INV (dpStep p c).1 (dpStep p c).2 := by
  rcases p with ⟨st, h⟩
  cases c with
  | op o => exact INV_stage st h hinv o
  | apply => exact INV_applyStep st h hinv

/-- The invariant holds along every command sequence. -/
theorem INV_dpRun_foldl (cmds : List DPCmd) (p : Store × HostState)
    (hinv : INV p.1 p.2) :
    INV (cmds.foldl dpStep p).1 (cmds.foldl dpStep p).2 := by
  induction cmds generalizing p with
  | nil => exact hinv
  | cons c cmds ih => exact ih (dpStep p c) (INV_dpStep p hinv c)

/-- Every reachable engine/host pair satisfies the invariant. -/
theorem reachable_INV (st : Store) (h : HostState)
    (hreach : Reachable st h) : INV st h := by
  obtain ⟨cmds, hcmds⟩ := hreach
  have hrun := INV_dpRun_foldl cmds (emptyStore, emptyHost) INV_empty
  rw [show cmds.foldl dpStep (emptyStore, emptyHost) = dpRun cmds from rfl,
    hcmds] at hrun
  exact hrun

/-- Claim C1 (amended): every batch ApplyDataPlane hands to the executor is
ordered — set creations and membership changes first, then policy
creations/updates, then policy removals, then set-reference removals, then
set deletions last — and, for every reachable engine/host state whose flush
holds back no policy with an applied host copy, executing the program never
applies a rule referencing a set absent at that point and never deletes a set
while a rule still on the host references it.  The original unconditional
safety consequence is refuted by ApplyDataPlane_unsafe_counterexample. -/
theorem ApplyDataPlane_ordered_safe (st : Store) (h : HostState)
    (exec : List Instr → Bool) (st2 : Store) (res : Option Err)
    (prog : List Instr)
    (hreach : Reachable st h) (hsafe : noStaleHeldBack st)
    (happ : ApplyDataPlane exec st = (st2, res, some prog)) :
    prog.Pairwise (fun a b => phase a ≤ phase b) ∧ execOK h prog = true := by
  have hinv := reachable_INV st h hreach
  have hprog : prog = buildProgram st := by
    by_cases hpe : pendingIsEmpty st.pending = true
    · simp [ApplyDataPlane, hpe] at happ
    · by_cases hex : exec (buildProgram st) = true
      · simp only [ApplyDataPlane, hpe, if_false, hex, if_true,
          Bool.false_eq_true, Prod.mk.injEq] at happ
        exact Option.some_injective _ happ.2.2.symm
      · simp only [ApplyDataPlane, hpe, if_false, hex, if_true,
          Bool.false_eq_true, Prod.mk.injEq] at happ
        exact Option.some_injective _ happ.2.2.symm
  subst hprog
  exact ⟨buildProgram_ordered st, buildProgram_execOK st h hinv hsafe⟩

/-- The command sequence of the counterexample: create set "b", add policy
"q" referencing it, apply, remove the policy, delete the set, then re-add the
same dangling policy before the next apply — a watcher interleaving section
4.3 explicitly tolerates. -/
def cexCmds : List DPCmd :=
  [DPCmd.op (StageOp.createIPSet ⟨"b", SetKind.set⟩),
   DPCmd.op (StageOp.addPolicy ⟨"q", [⟨["b"], none, none, true⟩]⟩),
   DPCmd.apply,
   DPCmd.op (StageOp.removePolicy "q"),
   DPCmd.op (StageOp.deleteIPSet ⟨"b", SetKind.set⟩),
   DPCmd.op (StageOp.addPolicy ⟨"q", [⟨["b"], none, none, true⟩]⟩)]

/-- The engine state reached by the counterexample commands. -/
def cexStore : Store := (dpRun cexCmds).1

/-- The host state reached by the counterexample commands. -/
def cexHost : HostState := (dpRun cexCmds).2

/-- Counterexample to claim C1 as stated: at this reachable engine/host
state the next flush hands the executor the program consisting solely of the
deletion of set "b", while the rule-set "q" still on the host references "b"
— the flushed batch deletes a set with no preceding removal of the rule
referencing it, and running it violates the executor's deletion demand. -/
theorem ApplyDataPlane_unsafe_counterexample :
    Reachable cexStore cexHost ∧
    ((ApplyDataPlane (fun p => execOK cexHost p) cexStore).2.2 =
        some [Instr.deleteSet "b"] ∧
      ("q", ["b"]) ∈ cexHost.hostPolicies ∧
      execOK cexHost [Instr.deleteSet "b"] = false) :=
  ⟨⟨cexCmds, rfl⟩, by decide⟩

/-- The command sequence of the witness: create set "a" with a member and
policy "p" referencing it, apply, then stage a removal of "p", a deletion of
"a", a new set "c" and a new valid policy "r" referencing "c", so the next
flush exercises set update, policy update, policy removal and set deletion. -/
def witCmds : List DPCmd :=
  [DPCmd.op (StageOp.createIPSet ⟨"a", SetKind.set⟩),
   DPCmd.op (StageOp.addToSet [⟨"a", SetKind.set⟩] "10.0.0.5" "pod-1"),
   DPCmd.op (StageOp.addPolicy ⟨"p", [⟨["a"], none, none, true⟩]⟩),
   DPCmd.apply,
   DPCmd.op (StageOp.removePolicy "p"),
   DPCmd.op (StageOp.deleteIPSet ⟨"a", SetKind.set⟩),
   DPCmd.op (StageOp.createIPSet ⟨"c", SetKind.set⟩),
   DPCmd.op (StageOp.addPolicy ⟨"r", [⟨["c"], none, none, true⟩]⟩)]

/-- The engine state reached by the witness commands. -/
def witStore : Store := (dpRun witCmds).1

/-- The host state reached by the witness commands. -/
def witHost : HostState := (dpRun witCmds).2

/-- Witness for C1: at this reachable state, whose flush holds nothing back,
the flushed batch is ordered and executes safely against the host. -/
theorem ApplyDataPlane_ordered_safe_witness :
    Reachable witStore witHost ∧ noStaleHeldBack witStore ∧
    ((buildProgram witStore).Pairwise (fun a b => phase a ≤ phase b) ∧
      execOK witHost (buildProgram witStore) = true) :=
  ⟨⟨witCmds, rfl⟩, by decide,
    ApplyDataPlane_ordered_safe witStore witHost
      (fun p => execOK witHost p)
      (ApplyDataPlane (fun p => execOK witHost p) witStore).1
      (ApplyDataPlane (fun p => execOK witHost p) witStore).2.1
      (buildProgram witStore) ⟨witCmds, rfl⟩ (by decide) (by decide)⟩
